import Mathlib

/-!
Verification development for the RSU-Offloading proof-of-concept VANET
simulation (`poc/simple_vanet.py`).

The Python program is shallowly embedded as follows.

* Positions and distances are exact rationals (the Python floats are IEEE
  doubles used for plain arithmetic; we model the ideal real/rational
  semantics the program computes with).
* `distance` in the source returns `sqrt((x1-x2)^2+(y1-y2)^2)`.  The program
  only ever *compares* distances (against thresholds, and between
  candidate ratios), so the executable model works with squared quantities
  (`distSq`, `ratio_sq`); a faithful real-valued mirror (`distance`,
  using `Real.sqrt`) is defined as well and bridging lemmas prove that the
  squared comparisons agree with the source's square-root comparisons
  whenever the involved ranges/thresholds are nonnegative (they are 45 and
  0.7 in the program).
* A vehicle's heading is stored by the source as an angle in degrees and is
  only consumed through `(cos rad, sin rad)` inside `is_moving_towards`,
  where just the *sign* of a dot product with that unit vector matters.
  The executable model stores the direction vector itself (any positive
  scalar multiple of the unit vector, field `dir`); the faithful
  degree-based real mirror `is_moving_towards` is kept alongside, and a
  bridging lemma shows the two agree whenever `dir` is a positive multiple
  of `(cos, sin)` of the angle.
* Python lists of agent objects become lists of indices (handles) into the
  model's station/vehicle arrays; object identity becomes index equality.
* Raised exceptions become `Except.error`.
-/

attribute [local semireducible] Rat.add Rat.sub Rat.mul Rat.inv

deriving instance DecidableEq for Except

/-- A point in the continuous 2D space, with exact rational coordinates. -/
abbrev Pt : Type := ℚ × ℚ

/-- Squared Euclidean distance, the executable counterpart of the source's
`distance` (which additionally takes the square root). -/
def distSq (pos1 pos2 : Pt) : ℚ :=
  (pos1.1 - pos2.1) ^ 2 + (pos1.2 - pos2.2) ^ 2

/-- Cast a rational point to the real plane. -/
def toR (p : Pt) : ℝ × ℝ := ((p.1 : ℝ), (p.2 : ℝ))

/-- Faithful real-valued mirror of `distance` from the source:
`np.sqrt((x1 - x2) ** 2 + (y1 - y2) ** 2)`. -/
noncomputable def distance (pos1 pos2 : ℝ × ℝ) : ℝ :=
  Real.sqrt ((pos1.1 - pos2.1) ^ 2 + (pos1.2 - pos2.2) ^ 2)

/-- Faithful real-valued mirror of the source's `is_moving_towards`:
convert the orientation (degrees) to radians, take the heading unit vector
`(cos rad, sin rad)`, and test whether its dot product with the vector from
the vehicle to the station is strictly positive. -/
noncomputable def is_moving_towards (vehicle_pos : ℝ × ℝ) (vehicle_orientation : ℝ)
    (station_pos : ℝ × ℝ) : Prop :=
  let rad := vehicle_orientation * (Real.pi / 180)
  let vehicle_dir : ℝ × ℝ := (Real.cos rad, Real.sin rad)
  let to_station_vec : ℝ × ℝ :=
    (station_pos.1 - vehicle_pos.1, station_pos.2 - vehicle_pos.2)
  vehicle_dir.1 * to_station_vec.1 + vehicle_dir.2 * to_station_vec.2 > 0

/-- Executable counterpart of `is_moving_towards`: the heading is given by
its direction vector `vehicle_dir` (any positive scalar multiple of
`(cos rad, sin rad)`); the dot-product sign test is unchanged. -/
def moving_towards_vec (vehicle_pos : Pt) (vehicle_dir : Pt) (station_pos : Pt) : Bool :=
  decide (0 < vehicle_dir.1 * (station_pos.1 - vehicle_pos.1)
      + vehicle_dir.2 * (station_pos.2 - vehicle_pos.2))

/-- One row of a vehicle trace (`timestep_time`, `vehicle_x`, `vehicle_y`,
and the heading `vehicle_angle` represented by its direction vector). -/
structure TraceSample where
  timestep_time : ℤ
  vehicle_x : ℚ
  vehicle_y : ℚ
  dir : Pt
deriving DecidableEq, Repr

/-- A vehicle trace: bounds plus the ordered sample rows (the external
trace-feed contract of `VanetTraceLoader.VehicleTrace`). -/
structure VehicleTrace where
  first_ts : ℤ
  last_ts : ℤ
  trace : List TraceSample
deriving DecidableEq, Repr

/-- State of a `VehicleAgent`.  `station` is a handle (index) into the
model's station list; `dir` models the stored angle by its direction
vector. -/
structure VehicleAgent where
  ts : ℕ
  trace_i : ℕ
  trace : VehicleTrace
  active : Bool
  dir : Pt
  pos : Pt
  station : Option ℕ
deriving DecidableEq, Repr

/-- State of a `VECStationAgent`.  `neighbors` and `vehicles` hold handles
(indices) into the model's station and vehicle lists respectively. -/
structure VECStationAgent where
  pos : Pt
  range : ℚ
  capacity : ℕ
  neighbors : List ℕ
  vehicles : List ℕ
  distance_threshold : ℚ
  load_threshold : ℚ
deriving DecidableEq, Repr

/-- The `load` property: the number of currently served vehicles. -/
def VECStationAgent.load (s : VECStationAgent) : ℕ := s.vehicles.length

/-- The simulation model state: the station and vehicle populations, in
creation (= scheduler registration) order. -/
structure VECModel where
  stations : List VECStationAgent
  vehicles : List VehicleAgent
deriving DecidableEq, Repr

/-- Placeholder station used by the total lookup `getStation`. -/
def dfltStation : VECStationAgent :=
  { pos := (0, 0), range := 0, capacity := 0, neighbors := [], vehicles := [],
    distance_threshold := 7/10, load_threshold := 7/10 }

/-- Placeholder vehicle used by the total lookup `getVehicle`. -/
def dfltVehicle : VehicleAgent :=
  { ts := 0, trace_i := 0, trace := { first_ts := 0, last_ts := 0, trace := [] },
    active := false, dir := (1, 0), pos := (0, 0), station := none }

/-- Total lookup of a station by handle. -/
def getStation (m : VECModel) (si : ℕ) : VECStationAgent := m.stations.getD si dfltStation

/-- Total lookup of a vehicle by handle. -/
def getVehicle (m : VECModel) (vid : ℕ) : VehicleAgent := m.vehicles.getD vid dfltVehicle

/-- Constant `TIME_STEP_MS = 500`. -/
def TIME_STEP_MS : ℚ := 500

/-- Constant `TIME_STEP_S = TIME_STEP_MS / 1000.0` (= 1/2, exact as a double). -/
def TIME_STEP_S : ℚ := TIME_STEP_MS / 1000

/-- External time `int(ts * TIME_STEP_S)`: Python `int()` truncates toward zero, and
`ts * 0.5` is nonnegative and exactly representable, so this is `ts / 2`
in natural division. -/
def external_ts (ts : ℕ) : ℤ := ((ts / 2 : ℕ) : ℤ)

/-- Mirror of `VehicleAgent.do_step(ts)`: sets `active`, checks the current trace row
against the target timestep, and either returns unchanged (already at
`ts`), advances exactly one row (which must be stamped exactly `ts`,
overwriting position and heading), or raises.  (The source sets
`self.active = True` before the checks; since a raised exception aborts
the run, setting it only on the success paths is equivalent.) -/
def do_step (v : VehicleAgent) (ts : ℤ) : Except String VehicleAgent :=
  match v.trace.trace[v.trace_i]? with
  | none => .error "trace index out of range"
  | some state =>
    if state.timestep_time ≠ ts ∧ state.timestep_time ≠ ts - 1 then
      .error "Time step mismatch"
    else if state.timestep_time = ts then
      .ok { v with active := true }
    else
      match v.trace.trace[v.trace_i + 1]? with
      | none => .error "trace index out of range"
      | some state2 =>
        if state2.timestep_time > ts then .error "Time step jumped to the future"
        else if state2.timestep_time < ts then .error "Time step still in the past"
        else .ok { v with active := true, trace_i := v.trace_i + 1,
                          pos := (state2.vehicle_x, state2.vehicle_y),
                          dir := state2.dir }

/-- Mirror of `VehicleAgent.step`: advance the internal tick, derive external time,
replay while inside `[first_ts, last_ts]`, and deactivate once external
time has passed `last_ts`. -/
def VehicleAgent.step (v : VehicleAgent) : Except String VehicleAgent :=
  let v := { v with ts := v.ts + 1 }
  let ets := external_ts v.ts
  (if v.trace.first_ts ≤ ets ∧ ets ≤ v.trace.last_ts then do_step v ets else .ok v).map
    (fun v' => if v'.trace.last_ts < ets then { v' with active := false } else v')

/-- Mirror of `VECStationAgent.is_vehicle_exiting`: the source compares
`distance(self.pos, vehicle.pos) > self.range * self.distance_threshold`;
the executable model compares the squares (equivalent for the nonnegative
threshold `range * 0.7` used by the program; see
`is_vehicle_exiting_iff_real`). -/
def is_vehicle_exiting (s : VECStationAgent) (v : VehicleAgent) : Bool :=
  decide ((s.range * s.distance_threshold) ^ 2 < distSq s.pos v.pos)
    && !(moving_towards_vec v.pos v.dir s.pos)

/-- Squared counterpart of the handover ranking key
`distance(x.pos, vehicle.pos) / x.range`. -/
def ratio_sq (x : VECStationAgent) (vpos : Pt) : ℚ :=
  distSq x.pos vpos / x.range ^ 2

/-- The candidate list built by `attempt_handover`:
`[(distance(x.pos, vehicle.pos) / x.range, x) for x in self.neighbors if x != self]`
(with the squared key). -/
def handover_candidates (m : VECModel) (si : ℕ) (vpos : Pt) : List (ℚ × ℕ) :=
  ((getStation m si).neighbors.filter (fun n => n ≠ si)).map
    (fun n => (ratio_sq (getStation m n) vpos, n))

/-- Comparison used to sort candidates (`key=lambda x: x[0]`). -/
def hoLe (a b : ℚ × ℕ) : Bool := decide (a.1 ≤ b.1)

/-- Insert an element into a sorted candidate list, before the first
element it compares `≤` to.  Together with `sortCands` this is a stable
sort, modelling Python's stable `sorted(neighbors, key=lambda x: x[0])`
(structural recursion is used so that concrete runs compute). -/
def insort (a : ℚ × ℕ) : List (ℚ × ℕ) → List (ℚ × ℕ)
  | [] => [a]
  | b :: l => if hoLe a b then a :: b :: l else b :: insort a l

/-- Stable insertion sort by ratio, modelling `sorted(...)`. -/
def sortCands : List (ℚ × ℕ) → List (ℚ × ℕ)
  | [] => []
  | a :: l => insort a (sortCands l)

/-- The scan over the sorted candidates: break at the first ratio `> 1`,
accept the first candidate with free capacity toward which the vehicle is
moving. -/
def hoscan (m : VECModel) (v : VehicleAgent) : List (ℚ × ℕ) → Option ℕ
  | [] => none
  | (r, n) :: rest =>
    if 1 < r then none
    else if (getStation m n).load < (getStation m n).capacity
        ∧ moving_towards_vec v.pos v.dir (getStation m n).pos = true then some n
    else hoscan m v rest

/-- The station (if any) that `attempt_handover` hands the vehicle to. -/
def handover_target (m : VECModel) (si vid : ℕ) : Option ℕ :=
  let v := getVehicle m vid
  hoscan m v (sortCands (handover_candidates m si v.pos))

/-- The three mutations of an accepted handover, applied together:
`self.vehicles.remove(vehicle)`, `neighbor.vehicles.append(vehicle)`,
`vehicle.station = neighbor`. -/
def applyHandover (m : VECModel) (si vid ni : ℕ) : VECModel :=
  let s := getStation m si
  let nb := getStation m ni
  { stations := (m.stations.set si { s with vehicles := s.vehicles.erase vid }).set ni
      { nb with vehicles := nb.vehicles ++ [vid] },
    vehicles := m.vehicles.set vid { getVehicle m vid with station := some ni } }

/-- Mirror of `VECStationAgent.attempt_handover`. -/
def attempt_handover (m : VECModel) (si vid : ℕ) : VECModel :=
  match handover_target m si vid with
  | some ni => applyHandover m si vid ni
  | none => m

/-- Mirror of `VECStationAgent.step`: iterate over a snapshot (`list(self.vehicles)`)
of the served set, and for each vehicle predicted to exit, attempt a
handover.  There is no check of the vehicle's `active` flag. -/
def station_step (m : VECModel) (si : ℕ) : VECModel :=
  ((getStation m si).vehicles).foldl
    (fun acc vid =>
      if is_vehicle_exiting (getStation acc si) (getVehicle acc vid) then
        attempt_handover acc si vid
      else acc) m

/-- All stations step, in creation order. -/
def stationPhase (m : VECModel) : VECModel :=
  (List.range m.stations.length).foldl station_step m

/-- One vehicle steps (exceptions abort the run). -/
def vstepAt (m : VECModel) (vid : ℕ) : Except String VECModel :=
  (VehicleAgent.step (getVehicle m vid)).map
    (fun v' => { m with vehicles := m.vehicles.set vid v' })

/-- All vehicles step, in creation order. -/
def vehiclePhase (m : VECModel) : Except String VECModel :=
  (List.range m.vehicles.length).foldlM vstepAt m

/-- A scheduler slot: either a station or a vehicle agent. -/
inductive AgentRef where
  | stationRef (si : ℕ)
  | vehicleRef (vid : ℕ)
deriving DecidableEq, Repr

/-- The `BaseScheduler`'s registration order: all stations (in creation
order), then all vehicles (in creation order). -/
def agentOrder (m : VECModel) : List AgentRef :=
  (List.range m.stations.length).map AgentRef.stationRef
    ++ (List.range m.vehicles.length).map AgentRef.vehicleRef

/-- Step one registered agent. -/
def stepAgent (m : VECModel) : AgentRef → Except String VECModel
  | .stationRef si => .ok (station_step m si)
  | .vehicleRef vid => vstepAt m vid

/-- One scheduler tick (`VECModel.step` → `BaseScheduler.step`): every
registered agent steps exactly once, in registration order. -/
def tick (m : VECModel) : Except String VECModel :=
  (agentOrder m).foldlM stepAgent m

/-- The four waypoints of `VECModel.__init__` (offset 5 from the corners). -/
def waypoints (width height : ℚ) : List Pt :=
  [(5, 5), (width - 5, 5), (width - 5, height - 5), (5, height - 5)]

/-- The four station positions (offset 5 from the waypoints). -/
def station_positions (width height : ℚ) : List Pt :=
  let w := waypoints width height
  [ ((w.getD 0 (0, 0)).1 + 5, (w.getD 0 (0, 0)).2 + 5),
    ((w.getD 1 (0, 0)).1 - 5, (w.getD 1 (0, 0)).2 + 5),
    ((w.getD 2 (0, 0)).1 - 5, (w.getD 2 (0, 0)).2 - 5),
    ((w.getD 3 (0, 0)).1 + 5, (w.getD 3 (0, 0)).2 - 5) ]

/-- The four stations of `VECModel.__init__`: range 45, capacity 10, ring
adjacency `neighbors[i] = [stations[(i+1)%4], stations[(i+3)%4]]`. -/
def mkStations (width height : ℚ) : List VECStationAgent :=
  (List.range 4).map (fun i =>
    { pos := (station_positions width height).getD i (0, 0),
      range := 45, capacity := 10,
      neighbors := [(i + 1) % 4, (i + 3) % 4],
      vehicles := [],
      distance_threshold := 7/10, load_threshold := 7/10 })

/-- First index attaining the minimum of `f` (Python `min(..., key=f)`
keeps the first element on ties: it replaces the running best only on a
strictly smaller key). -/
def argmin_go (f : ℕ → ℚ) : List ℕ → ℕ → ℚ → ℕ
  | [], best, _ => best
  | i :: rest, best, bv =>
    if f i < bv then argmin_go f rest i (f i) else argmin_go f rest best bv

/-- Mirror of `min(self.vec_stations, key=lambda x: distance(x.pos, vehicle.pos))`,
as the index of the chosen station (squared distances give the same
ordering).  `none` on an empty station list (Python would raise). -/
def argmin_station (stations : List VECStationAgent) (p : Pt) : Option ℕ :=
  match stations with
  | [] => none
  | _ :: _ => some (argmin_go (fun i => distSq (stations.getD i dfltStation).pos p)
      (List.range stations.length).tail 0
      (distSq (stations.getD 0 dfltStation).pos p))

/-- Mirror of `spawn_vehicle` from `VECModel.__init__`.  The Python closure reads the
variable `pos` left over from the station-placement loop, so every vehicle
is placed at `station_positions[3]` before the nearest-station lookup; the
angle starts at 0 (direction vector `(1, 0)`), and a trace starting at
timestep 0 is advanced through `do_step(0)` during construction. -/
def spawn_vehicle (width height : ℚ) (m : VECModel) (t : VehicleTrace) :
    Except String VECModel :=
  let v0 : VehicleAgent :=
    { ts := 0, trace_i := 0, trace := t, active := false, dir := (1, 0),
      pos := (0, 0), station := none }
  (if t.first_ts = 0 then do_step v0 0 else .ok v0).bind fun v1 =>
    let leaked_pos := (station_positions width height).getD 3 (0, 0)
    let v2 := { v1 with pos := leaked_pos }
    match argmin_station m.stations v2.pos with
    | none => .error "min of empty sequence"
    | some si =>
      let vid := m.vehicles.length
      let s := getStation m si
      .ok { stations := m.stations.set si { s with vehicles := s.vehicles ++ [vid] },
            vehicles := m.vehicles ++ [{ v2 with station := some si }] }

/-- Mirror of `VECModel.__init__`: build the four stations, then spawn one vehicle
per trace. -/
def mkModel (width height : ℚ) (traces : List VehicleTrace) : Except String VECModel :=
  traces.foldlM (spawn_vehicle width height)
    { stations := mkStations width height, vehicles := [] }

/-- Total load: the sum of `load` over all stations. -/
def sumLoad (m : VECModel) : ℕ := (m.stations.map VECStationAgent.load).sum

/-- The number of currently active vehicles. -/
def activeCount (m : VECModel) : ℕ := (m.vehicles.filter (fun v => v.active)).length

/-- Bidirectional served-set consistency: every station's served list is
duplicate-free, and every vehicle in it is a valid handle whose station
reference points back at that station. -/
def Consistent (m : VECModel) : Prop :=
  ∀ si, si < m.stations.length →
    (getStation m si).vehicles.Nodup ∧
    ∀ vid ∈ (getStation m si).vehicles,
      vid < m.vehicles.length ∧ (getVehicle m vid).station = some si

/-- Every configured neighbor handle points at an existing station. -/
def NeighborsWF (m : VECModel) : Prop :=
  ∀ si, si < m.stations.length →
    ∀ n ∈ (getStation m si).neighbors, n < m.stations.length

/-- Acceptance test of the handover scan, as a single predicate (used to
characterise the scan as "first qualifying candidate in sorted order"):
ratio within useful range, free capacity, and the vehicle moving toward
the candidate. -/
def hoAccept (m : VECModel) (v : VehicleAgent) (p : ℚ × ℕ) : Bool :=
  decide (p.1 ≤ 1) && (decide ((getStation m p.2).load < (getStation m p.2).capacity)
    && moving_towards_vec v.pos v.dir (getStation m p.2).pos)

/-- Overwrite one vehicle's `active` flag (used to state that the station
phase never reads it). -/
def setActive (m : VECModel) (vid : ℕ) (b : Bool) : VECModel :=
  { m with vehicles := m.vehicles.set vid { getVehicle m vid with active := b } }

/-! ### Concrete fixtures used by witnesses and counterexamples -/

/-- A vehicle whose trace cursor already sits at timestep 3 (samples at
timesteps 0..3, cursor at index 3). -/
def c6Vehicle : VehicleAgent :=
  { ts := 6, trace_i := 3,
    trace := { first_ts := 0, last_ts := 9,
               trace := [⟨0, 0, 0, (1, 0)⟩, ⟨1, 2, 0, (1, 0)⟩,
                         ⟨2, 4, 0, (1, 0)⟩, ⟨3, 6, 0, (1, 0)⟩] },
    active := true, dir := (1, 0), pos := (6, 0), station := some 0 }

/-- A two-station model: station 0 at the origin serves one vehicle at
`(40, 0)` heading `+x` (inactive, its trace exhausted); station 1 at
`(50, 0)` is free.  The vehicle is far from station 0, not moving toward
it, and moving toward station 1. -/
def c5Model : VECModel :=
  { stations :=
      [ { pos := (0, 0), range := 45, capacity := 10, neighbors := [1], vehicles := [0],
          distance_threshold := 7/10, load_threshold := 7/10 },
        { pos := (50, 0), range := 45, capacity := 10, neighbors := [0], vehicles := [],
          distance_threshold := 7/10, load_threshold := 7/10 } ],
    vehicles :=
      [ { ts := 20, trace_i := 0,
          trace := { first_ts := -5, last_ts := -1, trace := [] },
          active := false, dir := (1, 0), pos := (40, 0), station := some 0 } ] }

/-- A trace that only becomes live at external time 5 (its vehicle spawns
inactive). -/
def c4Trace : VehicleTrace :=
  { first_ts := 5, last_ts := 6,
    trace := [⟨5, 100, 100, (1, 0)⟩, ⟨6, 102, 100, (1, 0)⟩] }

/-- A trace that starts at timestep 0 at position `(190, 10)` — exactly the
position of station 1 of a 200×200 model. -/
def c7Trace : VehicleTrace :=
  { first_ts := 0, last_ts := 1,
    trace := [⟨0, 190, 10, (0, 1)⟩, ⟨1, 190, 12, (0, 1)⟩] }

/-! ### Bridging lemmas: the executable squared comparisons agree with the
source's square-root / trigonometric formulations. -/

theorem distSq_nonneg (p q : Pt) : 0 ≤ distSq p q := by
  unfold distSq; positivity

theorem distance_toR (p q : Pt) : distance (toR p) (toR q) = Real.sqrt ((distSq p q : ℚ)) := by
  unfold distance distSq toR
  congr 1
  push_cast
  ring

theorem distance_gt_iff (p q : Pt) (c : ℚ) (hc : 0 ≤ c) :
    (c : ℝ) < distance (toR p) (toR q) ↔ c ^ 2 < distSq p q := by
  rw [distance_toR, Real.lt_sqrt (by exact_mod_cast hc)]
  constructor
  · intro h
    exact_mod_cast h
  · intro h
    exact_mod_cast h

theorem moving_towards_vec_iff (p t : Pt) (θ k : ℝ) (d : Pt)
    (hk : 0 < k)
    (h1 : (d.1 : ℝ) = k * Real.cos (θ * (Real.pi / 180)))
    (h2 : (d.2 : ℝ) = k * Real.sin (θ * (Real.pi / 180))) :
    moving_towards_vec p d t = true ↔ is_moving_towards (toR p) θ (toR t) := by
  have key : ((d.1 * (t.1 - p.1) + d.2 * (t.2 - p.2) : ℚ) : ℝ)
      = k * (Real.cos (θ * (Real.pi / 180)) * ((t.1 : ℝ) - (p.1 : ℝ))
          + Real.sin (θ * (Real.pi / 180)) * ((t.2 : ℝ) - (p.2 : ℝ))) := by
    push_cast
    rw [h1, h2]
    ring
  simp only [moving_towards_vec, decide_eq_true_eq, is_moving_towards, toR, gt_iff_lt]
  rw [← Rat.cast_pos (K := ℝ), key, mul_pos_iff_of_pos_left hk]

/-- Claim C9: the directional primitive `is_moving_towards(vehicle_pos,
heading_degrees, target)` holds iff the dot product of the heading unit
vector (0° = +x, counter-clockwise positive) with the vector from vehicle
to target is strictly positive; concretely, heading 45° toward `(1,1)` from
the origin is moving-toward, headings 225° and 136° are not, and any
heading exactly 90° off the vehicle-to-target direction (the target lying
along the 90°-rotated heading, at any signed distance `r`) is not. -/
theorem C9_directional_primitive :
    (∀ (p t : ℝ × ℝ) (θ : ℝ), is_moving_towards p θ t ↔
      0 < Real.cos (θ * (Real.pi / 180)) * (t.1 - p.1)
        + Real.sin (θ * (Real.pi / 180)) * (t.2 - p.2)) ∧
    is_moving_towards (0, 0) 45 (1, 1) ∧
    ¬ is_moving_towards (0, 0) 225 (1, 1) ∧
    ¬ is_moving_towards (0, 0) 136 (1, 1) ∧
    (∀ (p : ℝ × ℝ) (θ r : ℝ),
      ¬ is_moving_towards p θ
        (p.1 + r * Real.cos ((θ + 90) * (Real.pi / 180)),
         p.2 + r * Real.sin ((θ + 90) * (Real.pi / 180)))) := by
  refine ⟨fun p t θ => Iff.rfl, ?_, ?_, ?_, ?_⟩
  · simp only [is_moving_towards, gt_iff_lt]
    have h : (45 : ℝ) * (Real.pi / 180) = Real.pi / 4 := by ring
    rw [h, Real.cos_pi_div_four, Real.sin_pi_div_four]
    have h2 : (0:ℝ) < Real.sqrt 2 := Real.sqrt_pos.mpr (by norm_num)
    nlinarith [h2]
  · simp only [is_moving_towards, gt_iff_lt, not_lt]
    have h : (225 : ℝ) * (Real.pi / 180) = Real.pi + Real.pi / 4 := by ring
    rw [h, Real.cos_add, Real.sin_add, Real.cos_pi, Real.sin_pi,
      Real.cos_pi_div_four, Real.sin_pi_div_four]
    have h2 : (0:ℝ) < Real.sqrt 2 := Real.sqrt_pos.mpr (by norm_num)
    nlinarith [h2]
  · simp only [is_moving_towards, gt_iff_lt, not_lt]
    set θ := (136 : ℝ) * (Real.pi / 180) with hθ
    have key : Real.sin (θ + Real.pi / 4) ≤ 0 := by
      have h : θ + Real.pi / 4 = Real.pi + Real.pi / 180 := by rw [hθ]; ring
      rw [h, Real.sin_add, Real.sin_pi, Real.cos_pi]
      have hs : 0 < Real.sin (Real.pi / 180) := by
        apply Real.sin_pos_of_pos_of_lt_pi
        · positivity
        · nlinarith [Real.pi_pos]
      nlinarith [hs]
    rw [Real.sin_add, Real.cos_pi_div_four, Real.sin_pi_div_four] at key
    have h2 : (0:ℝ) < Real.sqrt 2 := Real.sqrt_pos.mpr (by norm_num)
    have h3 : Real.sqrt 2 * Real.sqrt 2 = 2 := Real.mul_self_sqrt (by norm_num)
    nlinarith [key, h2, h3]
  · intro p θ r
    simp only [is_moving_towards, gt_iff_lt, not_lt]
    have h : (θ + 90) * (Real.pi / 180) = θ * (Real.pi / 180) + Real.pi / 2 := by ring
    rw [h, Real.cos_add_pi_div_two, Real.sin_add_pi_div_two]
    ring_nf
    exact le_refl 0

/-- Claim C3: for a station and a served vehicle (with heading angle `θ`
degrees, whose stored direction vector is a positive multiple `k` of the
heading unit vector), `is_vehicle_exiting` returns true iff the Euclidean
distance from station to vehicle strictly exceeds `range ×
distance_threshold` and the vehicle is not moving toward the station. -/
theorem C3_exit_prediction (s : VECStationAgent) (v : VehicleAgent) (θ k : ℝ)
    (hthr : 0 ≤ s.range * s.distance_threshold)
    (hk : 0 < k)
    (h1 : (v.dir.1 : ℝ) = k * Real.cos (θ * (Real.pi / 180)))
    (h2 : (v.dir.2 : ℝ) = k * Real.sin (θ * (Real.pi / 180))) :
    is_vehicle_exiting s v = true ↔
      (((s.range * s.distance_threshold : ℚ) : ℝ) < distance (toR s.pos) (toR v.pos)
        ∧ ¬ is_moving_towards (toR v.pos) θ (toR s.pos)) := by
  have hmv := moving_towards_vec_iff v.pos s.pos θ k v.dir hk h1 h2
  unfold is_vehicle_exiting
  rw [Bool.and_eq_true, decide_eq_true_eq, Bool.not_eq_true']
  exact and_congr (distance_gt_iff _ _ _ hthr).symm
    (by rw [← hmv, Bool.not_eq_true])

/-- Witness for `C3_exit_prediction`: a station at the origin with range 45
and threshold 0.7, a vehicle at `(40, 0)` heading 0° (direction `(1, 0)`):
the vehicle is predicted to exit. -/
theorem C3_exit_prediction_witness :
    is_vehicle_exiting
        { pos := (0, 0), range := 45, capacity := 10, neighbors := [], vehicles := [],
          distance_threshold := 7/10, load_threshold := 7/10 }
        { ts := 0, trace_i := 0, trace := { first_ts := 0, last_ts := 0, trace := [] },
          active := true, dir := (1, 0), pos := (40, 0), station := some 0 } = true ↔
      ((((45 : ℚ) * (7/10) : ℚ) : ℝ) < distance (toR (0, 0)) (toR (40, 0))
        ∧ ¬ is_moving_towards (toR (40, 0)) 0 (toR (0, 0))) := by
  have h := C3_exit_prediction
    { pos := (0, 0), range := 45, capacity := 10, neighbors := [], vehicles := [],
      distance_threshold := 7/10, load_threshold := 7/10 }
    { ts := 0, trace_i := 0, trace := { first_ts := 0, last_ts := 0, trace := [] },
      active := true, dir := (1, 0), pos := (40, 0), station := some 0 }
    0 1 (by norm_num) (by norm_num) (by simp) (by simp)
  exact h

/-- Claim C6 (as the code behaves): whenever `do_step` succeeds it marks the
vehicle active and advances the trace cursor by **at most** one sample —
zero samples when the current row's timestep already equals the external
time (position and heading are then left untouched), exactly one when the
current row sits at external time − 1, in which case the replayed row's
timestep must equal the external time exactly and position/heading are
overwritten from it; a current row at any other timestep, or a next row
not stamped exactly with the external time, makes the operation fail with
an error rather than silently skipping samples. -/
theorem C6_trace_replay (v : VehicleAgent) (ts : ℤ) :
    (∀ v', do_step v ts = .ok v' →
      v'.active = true ∧ v'.station = v.station ∧ v'.ts = v.ts ∧ v'.trace = v.trace ∧
      (v'.trace_i = v.trace_i ∨ v'.trace_i = v.trace_i + 1) ∧
      (v'.trace_i = v.trace_i →
        v'.pos = v.pos ∧ v'.dir = v.dir ∧
        ∃ s, v.trace.trace[v.trace_i]? = some s ∧ s.timestep_time = ts) ∧
      (v'.trace_i = v.trace_i + 1 →
        ∃ s, v.trace.trace[v.trace_i + 1]? = some s ∧ s.timestep_time = ts ∧
          v'.pos = (s.vehicle_x, s.vehicle_y) ∧ v'.dir = s.dir)) ∧
    (∀ s, v.trace.trace[v.trace_i]? = some s → s.timestep_time ≠ ts →
      s.timestep_time ≠ ts - 1 → do_step v ts = .error "Time step mismatch") ∧
    (∀ s s', v.trace.trace[v.trace_i]? = some s → s.timestep_time = ts - 1 →
      v.trace.trace[v.trace_i + 1]? = some s' → s'.timestep_time ≠ ts →
      ∀ v', do_step v ts ≠ .ok v') := by
  refine ⟨?_, ?_, ?_⟩
  · intro v' h
    unfold do_step at h
    split at h
    · cases h
    next s hg =>
      split at h
      · cases h
      next h1 =>
        split at h
        next h2 =>
          cases h
          refine ⟨rfl, rfl, rfl, rfl, Or.inl rfl, fun _ => ⟨rfl, rfl, s, hg, h2⟩, fun hc => ?_⟩
          simp at hc
        next h2 =>
          split at h
          · cases h
          next s2 hg2 =>
            split at h
            · cases h
            next h3 =>
              split at h
              · cases h
              next h4 =>
                cases h
                refine ⟨rfl, rfl, rfl, rfl, Or.inr rfl, fun hc => ?_,
                  fun _ => ⟨s2, hg2, by omega, rfl, rfl⟩⟩
                simp at hc
  · intro s hg hne1 hne2
    unfold do_step
    split
    next heq => rw [hg] at heq; cases heq
    next s0 heq =>
      have hs : s0 = s := by rw [hg] at heq; exact (Option.some.inj heq).symm
      subst hs
      exact if_pos ⟨hne1, hne2⟩
  · intro s s' hg h1 hg2 hne v' hcon
    unfold do_step at hcon
    split at hcon
    · cases hcon
    next s0 heq =>
      have hs : s0 = s := by rw [hg] at heq; exact (Option.some.inj heq).symm
      subst hs
      rw [if_neg (by omega), if_neg (by omega)] at hcon
      split at hcon
      · cases hcon
      next s2 heq2 =>
        have hs2 : s2 = s' := by rw [hg2] at heq2; exact (Option.some.inj heq2).symm
        subst hs2
        by_cases h3 : s2.timestep_time > ts
        · rw [if_pos h3] at hcon
          cases hcon
        · rw [if_neg h3, if_pos (by omega)] at hcon
          cases hcon

/-- Witness for `C6_trace_replay`: applied to `c6Vehicle` at external time
3 (cursor already at timestep 3), the success case reports the cursor
unmoved. -/
theorem C6_trace_replay_witness :
    ({ c6Vehicle with active := true } : VehicleAgent).trace_i = c6Vehicle.trace_i ∨
    ({ c6Vehicle with active := true } : VehicleAgent).trace_i = c6Vehicle.trace_i + 1 :=
  ((C6_trace_replay c6Vehicle 3).1 _ (by decide)).2.2.2.2.1

/-- Claim C6 counterexample: the claim "exactly one forward trace sample is
replayed (and position/heading overwritten) on every in-range vehicle
step" is false: with the external time equal to the current row's
timestep, `do_step` succeeds replaying zero samples, leaving cursor and
position untouched.  (This happens on every other tick, because the
external time `int(ts * 0.5)` advances only every second tick.) -/
theorem C6_counterexample :
    do_step c6Vehicle 3 = .ok { c6Vehicle with active := true } ∧
    ({ c6Vehicle with active := true } : VehicleAgent).trace_i = c6Vehicle.trace_i ∧
    ({ c6Vehicle with active := true } : VehicleAgent).pos = c6Vehicle.pos ∧
    (3 : ℤ) ∈ Set.Icc c6Vehicle.trace.first_ts c6Vehicle.trace.last_ts := by
  refine ⟨by decide, by decide, by decide, by constructor <;> decide⟩

/-! ### List lookup helpers -/

theorem getD_set_self {α : Type} (l : List α) {i : ℕ} (h : i < l.length) (a d : α) :
    (l.set i a).getD i d = a := by
  rw [List.getD_eq_getElem?_getD, List.getElem?_set_self h]
  rfl

theorem getD_set_ne {α : Type} (l : List α) {i j : ℕ} (h : i ≠ j) (a d : α) :
    (l.set i a).getD j d = l.getD j d := by
  rw [List.getD_eq_getElem?_getD, List.getElem?_set_ne h, ← List.getD_eq_getElem?_getD]

theorem set_oob {α : Type} (l : List α) {i : ℕ} (h : ¬ i < l.length) (a : α) :
    l.set i a = l := by
  induction l generalizing i with
  | nil => rfl
  | cons x xs ih =>
    cases i with
    | zero => exact absurd (by simp) h
    | succ n =>
      simp only [List.set, List.cons.injEq, true_and]
      refine ih ?_
      simp only [List.length_cons] at h
      omega

/-! ### The stable insertion sort: sortedness, permutation, stability -/

theorem hoLe_trans : ∀ a b c : ℚ × ℕ, hoLe a b = true → hoLe b c = true → hoLe a c = true := by
  intro a b c
  simp only [hoLe, decide_eq_true_eq]
  exact le_trans

theorem hoLe_total : ∀ a b : ℚ × ℕ, hoLe a b = true ∨ hoLe b a = true := by
  intro a b
  simp only [hoLe, decide_eq_true_eq]
  exact le_total a.1 b.1

theorem insort_perm (a : ℚ × ℕ) : ∀ l : List (ℚ × ℕ), (insort a l).Perm (a :: l) := by
  intro l
  induction l with
  | nil => exact List.Perm.refl _
  | cons b l ih =>
    simp only [insort]
    by_cases h : hoLe a b = true
    · rw [if_pos h]
    · rw [if_neg h]
      exact (ih.cons b).trans (List.Perm.swap a b l)

theorem sortCands_perm : ∀ l : List (ℚ × ℕ), (sortCands l).Perm l := by
  intro l
  induction l with
  | nil => exact List.Perm.refl _
  | cons a l ih =>
    simp only [sortCands]
    exact (insort_perm a (sortCands l)).trans (ih.cons a)

theorem insort_pairwise (a : ℚ × ℕ) :
    ∀ l : List (ℚ × ℕ), l.Pairwise (fun x y => hoLe x y = true) →
    (insort a l).Pairwise (fun x y => hoLe x y = true) := by
  intro l
  induction l with
  | nil => intro _; exact List.pairwise_cons.mpr ⟨by simp, List.Pairwise.nil⟩
  | cons b l ih =>
    intro hp
    obtain ⟨hb, hl⟩ := List.pairwise_cons.mp hp
    simp only [insort]
    by_cases h : hoLe a b = true
    · rw [if_pos h]
      refine List.pairwise_cons.mpr ⟨?_, hp⟩
      intro y hy
      rcases List.mem_cons.mp hy with hy | hy
      · subst hy
        exact h
      · exact hoLe_trans a b y h (hb y hy)
    · rw [if_neg h]
      refine List.pairwise_cons.mpr ⟨?_, ih hl⟩
      intro y hy
      have hy2 := (insort_perm a l).mem_iff.mp hy
      rcases List.mem_cons.mp hy2 with hy2 | hy2
      · rw [hy2]
        rcases hoLe_total a b with hab | hba
        · exact absurd hab h
        · exact hba
      · exact hb y hy2

theorem sortCands_sorted : ∀ l : List (ℚ × ℕ),
    (sortCands l).Pairwise (fun x y => hoLe x y = true) := by
  intro l
  induction l with
  | nil => exact List.Pairwise.nil
  | cons a l ih =>
    simp only [sortCands]
    exact insort_pairwise a (sortCands l) ih

theorem insort_filter_pos (k : ℚ) (a : ℚ × ℕ) (ha : a.1 = k) :
    ∀ l : List (ℚ × ℕ),
    (insort a l).filter (fun p => decide (p.1 = k))
      = a :: l.filter (fun p => decide (p.1 = k)) := by
  intro l
  induction l with
  | nil => simp [insort, List.filter, ha]
  | cons b l ih =>
    simp only [insort]
    by_cases h : hoLe a b = true
    · rw [if_pos h]
      rw [List.filter_cons, if_pos (by simpa using ha)]
    · rw [if_neg h]
      have hbk : ¬ b.1 = k := by
        intro hbk
        simp only [hoLe, decide_eq_true_eq] at h
        exact h (le_of_eq (by rw [ha, hbk]))
      rw [List.filter_cons, if_neg (by simpa using hbk), ih,
        List.filter_cons, if_neg (by simpa using hbk)]

theorem insort_filter_neg (k : ℚ) (a : ℚ × ℕ) (ha : ¬ a.1 = k) :
    ∀ l : List (ℚ × ℕ),
    (insort a l).filter (fun p => decide (p.1 = k))
      = l.filter (fun p => decide (p.1 = k)) := by
  intro l
  induction l with
  | nil => simp [insort, List.filter, ha]
  | cons b l ih =>
    simp only [insort]
    by_cases h : hoLe a b = true
    · rw [if_pos h]
      rw [List.filter_cons, if_neg (by simpa using ha)]
    · rw [if_neg h]
      rw [List.filter_cons, ih, List.filter_cons]

/-- The sort is stable: restricted to any single ratio value, the sorted
candidate list keeps the original neighbor-list order. -/
theorem sortCands_stable (k : ℚ) : ∀ l : List (ℚ × ℕ),
    (sortCands l).filter (fun p => decide (p.1 = k))
      = l.filter (fun p => decide (p.1 = k)) := by
  intro l
  induction l with
  | nil => rfl
  | cons a l ih =>
    simp only [sortCands]
    by_cases ha : a.1 = k
    · rw [insort_filter_pos k a ha, ih, List.filter_cons, if_pos (by simpa using ha)]
    · rw [insort_filter_neg k a ha, ih, List.filter_cons, if_neg (by simpa using ha)]

/-! ### Shape relations: the station phase only rewrites served-vehicle
lists and vehicle station references; everything else is untouched. -/

/-- Relation stating `m'` has the same stations as `m` up to their `vehicles` lists. -/
def StationsShape (m m' : VECModel) : Prop :=
  m'.stations.length = m.stations.length ∧
  ∀ j, ∃ l, getStation m' j = { getStation m j with vehicles := l }

/-- Relation stating `m'` has the same vehicles as `m` up to their `station` references. -/
def VehiclesShape (m m' : VECModel) : Prop :=
  m'.vehicles.length = m.vehicles.length ∧
  ∀ w, ∃ st, getVehicle m' w = { getVehicle m w with station := st }

theorem stationsShape_rfl (m : VECModel) : StationsShape m m :=
  ⟨Eq.refl _, fun j => ⟨(getStation m j).vehicles, Eq.refl _⟩⟩

theorem vehiclesShape_rfl (m : VECModel) : VehiclesShape m m :=
  ⟨Eq.refl _, fun w => ⟨(getVehicle m w).station, Eq.refl _⟩⟩

theorem stationsShape_trans {m1 m2 m3 : VECModel} (h1 : StationsShape m1 m2)
    (h2 : StationsShape m2 m3) : StationsShape m1 m3 := by
  refine ⟨h2.1.trans h1.1, fun j => ?_⟩
  obtain ⟨l2, hl2⟩ := h2.2 j
  obtain ⟨l1, hl1⟩ := h1.2 j
  exact ⟨l2, by rw [hl2, hl1]⟩

theorem vehiclesShape_trans {m1 m2 m3 : VECModel} (h1 : VehiclesShape m1 m2)
    (h2 : VehiclesShape m2 m3) : VehiclesShape m1 m3 := by
  refine ⟨h2.1.trans h1.1, fun w => ?_⟩
  obtain ⟨s2, hs2⟩ := h2.2 w
  obtain ⟨s1, hs1⟩ := h1.2 w
  exact ⟨s2, by rw [hs2, hs1]⟩

theorem getD_shape_set_vehicles (sts : List VECStationAgent) (i j : ℕ) (a : VECStationAgent)
    (ha : ∃ l, a = { sts.getD i dfltStation with vehicles := l }) :
    ∃ l, (sts.set i a).getD j dfltStation = { sts.getD j dfltStation with vehicles := l } := by
  by_cases hij : i = j
  · subst hij
    by_cases hlt : i < sts.length
    · rw [getD_set_self _ hlt]
      exact ha
    · rw [set_oob _ hlt]
      exact ⟨(sts.getD i dfltStation).vehicles, Eq.refl _⟩
  · rw [getD_set_ne _ hij]
    exact ⟨(sts.getD j dfltStation).vehicles, Eq.refl _⟩

theorem getD_shape_set_station (vs : List VehicleAgent) (i j : ℕ) (a : VehicleAgent)
    (ha : ∃ st, a = { vs.getD i dfltVehicle with station := st }) :
    ∃ st, (vs.set i a).getD j dfltVehicle = { vs.getD j dfltVehicle with station := st } := by
  by_cases hij : i = j
  · subst hij
    by_cases hlt : i < vs.length
    · rw [getD_set_self _ hlt]
      exact ha
    · rw [set_oob _ hlt]
      exact ⟨(vs.getD i dfltVehicle).station, Eq.refl _⟩
  · rw [getD_set_ne _ hij]
    exact ⟨(vs.getD j dfltVehicle).station, Eq.refl _⟩

theorem getStation_mk (sts : List VECStationAgent) (vs : List VehicleAgent) (j : ℕ) :
    getStation { stations := sts, vehicles := vs } j = sts.getD j dfltStation := rfl

theorem getVehicle_mk (sts : List VECStationAgent) (vs : List VehicleAgent) (w : ℕ) :
    getVehicle { stations := sts, vehicles := vs } w = vs.getD w dfltVehicle := rfl

theorem applyHandover_stationsShape (m : VECModel) (si vid ni : ℕ) :
    StationsShape m (applyHandover m si vid ni) := by
  refine ⟨by simp [applyHandover], fun j => ?_⟩
  simp only [applyHandover, getStation_mk]
  have hB : ∃ l, ({ getStation m ni with vehicles := (getStation m ni).vehicles ++ [vid] }
        : VECStationAgent)
      = { (m.stations.set si
            { getStation m si with
                vehicles := (getStation m si).vehicles.erase vid }).getD ni dfltStation with
          vehicles := l } := by
    by_cases h1 : si = ni
    · subst h1
      by_cases h2 : si < m.stations.length
      · rw [getD_set_self _ h2]
        exact ⟨(getStation m si).vehicles ++ [vid], rfl⟩
      · rw [set_oob _ h2]
        exact ⟨(getStation m si).vehicles ++ [vid], rfl⟩
    · rw [getD_set_ne _ h1]
      exact ⟨(getStation m ni).vehicles ++ [vid], rfl⟩
  obtain ⟨l2, hl2⟩ := getD_shape_set_vehicles
    (m.stations.set si { getStation m si with vehicles := (getStation m si).vehicles.erase vid })
    ni j _ hB
  obtain ⟨l1, hl1⟩ := getD_shape_set_vehicles m.stations si j
    { getStation m si with vehicles := (getStation m si).vehicles.erase vid } ⟨_, rfl⟩
  refine ⟨l2, ?_⟩
  rw [hl2, hl1]
  rfl

theorem applyHandover_vehiclesShape (m : VECModel) (si vid ni : ℕ) :
    VehiclesShape m (applyHandover m si vid ni) := by
  refine ⟨by simp [applyHandover], fun w => ?_⟩
  simp only [applyHandover, getVehicle_mk]
  exact getD_shape_set_station _ vid w _ ⟨some ni, rfl⟩

theorem attempt_handover_stationsShape (m : VECModel) (si vid : ℕ) :
    StationsShape m (attempt_handover m si vid) := by
  unfold attempt_handover
  cases handover_target m si vid with
  | none => exact stationsShape_rfl m
  | some ni => exact applyHandover_stationsShape m si vid ni

theorem attempt_handover_vehiclesShape (m : VECModel) (si vid : ℕ) :
    VehiclesShape m (attempt_handover m si vid) := by
  unfold attempt_handover
  cases handover_target m si vid with
  | none => exact vehiclesShape_rfl m
  | some ni => exact applyHandover_vehiclesShape m si vid ni

theorem station_step_stationsShape (m : VECModel) (si : ℕ) :
    StationsShape m (station_step m si) := by
  unfold station_step
  generalize (getStation m si).vehicles = snapshot
  induction snapshot generalizing m with
  | nil => exact stationsShape_rfl m
  | cons vid rest ih =>
    rw [List.foldl_cons]
    refine stationsShape_trans ?_ (ih _)
    by_cases h : is_vehicle_exiting (getStation m si) (getVehicle m vid) = true
    · rw [if_pos h]; exact attempt_handover_stationsShape m si vid
    · rw [if_neg h]; exact stationsShape_rfl m

theorem station_step_vehiclesShape (m : VECModel) (si : ℕ) :
    VehiclesShape m (station_step m si) := by
  unfold station_step
  generalize (getStation m si).vehicles = snapshot
  induction snapshot generalizing m with
  | nil => exact vehiclesShape_rfl m
  | cons vid rest ih =>
    rw [List.foldl_cons]
    refine vehiclesShape_trans ?_ (ih _)
    by_cases h : is_vehicle_exiting (getStation m si) (getVehicle m vid) = true
    · rw [if_pos h]; exact attempt_handover_vehiclesShape m si vid
    · rw [if_neg h]; exact vehiclesShape_rfl m

theorem stationPhase_stationsShape (m : VECModel) :
    StationsShape m (stationPhase m) := by
  unfold stationPhase
  generalize List.range m.stations.length = idxs
  induction idxs generalizing m with
  | nil => exact stationsShape_rfl m
  | cons si rest ih =>
    rw [List.foldl_cons]
    exact stationsShape_trans (station_step_stationsShape m si) (ih _)

theorem stationPhase_vehiclesShape (m : VECModel) :
    VehiclesShape m (stationPhase m) := by
  unfold stationPhase
  generalize List.range m.stations.length = idxs
  induction idxs generalizing m with
  | nil => exact vehiclesShape_rfl m
  | cons si rest ih =>
    rw [List.foldl_cons]
    exact vehiclesShape_trans (station_step_vehiclesShape m si) (ih _)

/-! ### Characterising an accepted handover -/

theorem hoscan_some (m : VECModel) (v : VehicleAgent) :
    ∀ {l : List (ℚ × ℕ)} {ni : ℕ}, hoscan m v l = some ni →
    ∃ r, (r, ni) ∈ l ∧ ¬ 1 < r ∧
      (getStation m ni).load < (getStation m ni).capacity ∧
      moving_towards_vec v.pos v.dir (getStation m ni).pos = true := by
  intro l
  induction l with
  | nil => intro ni h; cases h
  | cons p rest ih =>
    intro ni h
    obtain ⟨r, n⟩ := p
    simp only [hoscan] at h
    by_cases h1 : 1 < r
    · rw [if_pos h1] at h; cases h
    · rw [if_neg h1] at h
      by_cases h2 : (getStation m n).load < (getStation m n).capacity
          ∧ moving_towards_vec v.pos v.dir (getStation m n).pos = true
      · rw [if_pos h2] at h
        cases h
        exact ⟨r, List.mem_cons_self _ _, h1, h2.1, h2.2⟩
      · rw [if_neg h2] at h
        obtain ⟨r2, hmem, hr2, hl2, hm2⟩ := ih h
        exact ⟨r2, List.mem_cons_of_mem _ hmem, hr2, hl2, hm2⟩

theorem handover_target_some_spec (m : VECModel) (si vid ni : ℕ)
    (h : handover_target m si vid = some ni) :
    ni ∈ (getStation m si).neighbors ∧ ni ≠ si ∧
    (getStation m ni).load < (getStation m ni).capacity ∧
    moving_towards_vec (getVehicle m vid).pos (getVehicle m vid).dir
      (getStation m ni).pos = true ∧
    ratio_sq (getStation m ni) (getVehicle m vid).pos ≤ 1 := by
  simp only [handover_target] at h
  obtain ⟨r, hmem, hr, hload, hmov⟩ := hoscan_some m _ h
  have hmem2 : (r, ni) ∈ handover_candidates m si (getVehicle m vid).pos :=
    (sortCands_perm (handover_candidates m si (getVehicle m vid).pos)).mem_iff.mp hmem
  simp only [handover_candidates] at hmem2
  obtain ⟨n2, hn2mem, heq⟩ := List.mem_map.mp hmem2
  obtain ⟨hnb, hfil⟩ := List.mem_filter.mp hn2mem
  obtain ⟨heqr, heqn⟩ := Prod.mk.injEq .. |>.mp heq
  subst heqn
  refine ⟨hnb, by simpa using hfil, hload, hmov, ?_⟩
  rw [← heqr] at hr
  exact not_lt.mp hr

/-! ### Field-level description of `applyHandover` -/

theorem getStation_applyHandover_si (m : VECModel) {si ni : ℕ} (vid : ℕ)
    (hne : ni ≠ si) (hsi : si < m.stations.length) :
    getStation (applyHandover m si vid ni) si
      = { getStation m si with vehicles := (getStation m si).vehicles.erase vid } := by
  simp only [applyHandover, getStation_mk]
  rw [getD_set_ne _ hne, getD_set_self _ hsi]

theorem getStation_applyHandover_ni (m : VECModel) {si ni : ℕ} (vid : ℕ)
    (hni : ni < m.stations.length) :
    getStation (applyHandover m si vid ni) ni
      = { getStation m ni with vehicles := (getStation m ni).vehicles ++ [vid] } := by
  simp only [applyHandover, getStation_mk]
  rw [getD_set_self _ (by simpa using hni)]

theorem getStation_applyHandover_other (m : VECModel) {si ni j : ℕ} (vid : ℕ)
    (hj1 : j ≠ si) (hj2 : j ≠ ni) :
    getStation (applyHandover m si vid ni) j = getStation m j := by
  simp only [applyHandover, getStation_mk]
  rw [getD_set_ne _ (fun hh => hj2 hh.symm), getD_set_ne _ (fun hh => hj1 hh.symm)]
  rfl

theorem getVehicle_applyHandover_self (m : VECModel) {vid : ℕ} (si ni : ℕ)
    (hvid : vid < m.vehicles.length) :
    getVehicle (applyHandover m si vid ni) vid
      = { getVehicle m vid with station := some ni } := by
  simp only [applyHandover, getVehicle_mk]
  rw [getD_set_self _ hvid]

theorem getVehicle_applyHandover_other (m : VECModel) {vid w : ℕ} (si ni : ℕ)
    (hw : w ≠ vid) :
    getVehicle (applyHandover m si vid ni) w = getVehicle m w := by
  simp only [applyHandover, getVehicle_mk]
  rw [getD_set_ne _ (fun hh => hw hh.symm)]
  rfl

theorem applyHandover_stations_length (m : VECModel) (si vid ni : ℕ) :
    (applyHandover m si vid ni).stations.length = m.stations.length := by
  simp [applyHandover]

theorem applyHandover_vehicles_length (m : VECModel) (si vid ni : ℕ) :
    (applyHandover m si vid ni).vehicles.length = m.vehicles.length := by
  simp [applyHandover]

/-- A single accepted handover preserves bidirectional consistency. -/
theorem applyHandover_consistent (m : VECModel) (si vid ni : ℕ)
    (hC : Consistent m) (hsi : si < m.stations.length) (hni : ni < m.stations.length)
    (hne : ni ≠ si) (hmem : vid ∈ (getStation m si).vehicles) :
    Consistent (applyHandover m si vid ni) := by
  have hvid : vid < m.vehicles.length := ((hC si hsi).2 vid hmem).1
  have hvidref : (getVehicle m vid).station = some si := ((hC si hsi).2 vid hmem).2
  have hnotni : vid ∉ (getStation m ni).vehicles := by
    intro hcon
    have := ((hC ni hni).2 vid hcon).2
    rw [hvidref] at this
    exact hne (Option.some.inj this).symm
  intro j hj
  rw [applyHandover_stations_length] at hj
  by_cases hjsi : j = si
  · subst hjsi
    rw [getStation_applyHandover_si m vid hne hsi]
    refine ⟨List.Nodup.erase _ (hC j hj).1, fun w hw => ?_⟩
    have hw2 := ((hC j hj).1.mem_erase_iff).mp hw
    have hbase := (hC j hj).2 w hw2.2
    rw [applyHandover_vehicles_length, getVehicle_applyHandover_other m j ni hw2.1]
    exact hbase
  · by_cases hjni : j = ni
    · subst hjni
      rw [getStation_applyHandover_ni m vid hni]
      refine ⟨?_, fun w hw => ?_⟩
      · rw [List.nodup_append]
        exact ⟨(hC j hj).1, List.nodup_singleton _,
          fun w hw hw2 => hnotni ((List.mem_singleton.mp hw2) ▸ hw)⟩
      · rcases List.mem_append.mp hw with hw | hw
        · have hwne : w ≠ vid := fun hh => hnotni (hh ▸ hw)
          have hbase := (hC j hj).2 w hw
          rw [applyHandover_vehicles_length, getVehicle_applyHandover_other m si j hwne]
          exact hbase
        · rw [List.mem_singleton.mp hw]
          rw [applyHandover_vehicles_length, getVehicle_applyHandover_self m si j hvid]
          exact ⟨hvid, rfl⟩
    · rw [getStation_applyHandover_other m vid hjsi hjni]
      refine ⟨(hC j hj).1, fun w hw => ?_⟩
      have hbase := (hC j hj).2 w hw
      have hwne : w ≠ vid := by
        intro hh
        subst hh
        rw [hvidref] at hbase
        exact hjsi (Option.some.inj hbase.2).symm
      rw [applyHandover_vehicles_length, getVehicle_applyHandover_other m si ni hwne]
      exact hbase

/-! ### Load sums -/

theorem getD_indep {α : Type} : ∀ (l : List α) (i : ℕ), i < l.length →
    ∀ (d1 d2 : α), l.getD i d1 = l.getD i d2 := by
  intro l
  induction l with
  | nil => intro i h; cases h
  | cons x xs ih =>
    intro i h d1 d2
    cases i with
    | zero => rfl
    | succ n => exact ih n (by simpa using h) d1 d2

theorem sum_map_set {α : Type} (f : α → ℕ) :
    ∀ (l : List α) (i : ℕ) (a : α), i < l.length →
    ((l.set i a).map f).sum + f (l.getD i a) = (l.map f).sum + f a := by
  intro l
  induction l with
  | nil => intro i a h; cases h
  | cons x xs ih =>
    intro i a h
    cases i with
    | zero =>
      simp only [List.set, List.map_cons, List.sum_cons, List.getD_cons_zero]
      omega
    | succ n =>
      simp only [List.set, List.map_cons, List.sum_cons, List.getD_cons_succ]
      have := ih n a (by simpa using h)
      omega

theorem applyHandover_sumLoad (m : VECModel) (si vid ni : ℕ)
    (hsi : si < m.stations.length) (hni : ni < m.stations.length) (hne : ni ≠ si)
    (hmem : vid ∈ (getStation m si).vehicles) :
    sumLoad (applyHandover m si vid ni) = sumLoad m := by
  unfold sumLoad applyHandover
  simp only []
  have hlen1 : (m.stations.set si
      { getStation m si with vehicles := (getStation m si).vehicles.erase vid }).length
      = m.stations.length := List.length_set ..
  have h1 := sum_map_set VECStationAgent.load m.stations si
    { getStation m si with vehicles := (getStation m si).vehicles.erase vid } hsi
  have h2 := sum_map_set VECStationAgent.load
    (m.stations.set si
      { getStation m si with vehicles := (getStation m si).vehicles.erase vid })
    ni { getStation m ni with vehicles := (getStation m ni).vehicles ++ [vid] }
    (by rw [hlen1]; exact hni)
  have herase : ((getStation m si).vehicles.erase vid).length + 1
      = (getStation m si).vehicles.length := List.length_erase_add_one hmem
  have hgd1 : m.stations.getD si
      { getStation m si with vehicles := (getStation m si).vehicles.erase vid }
      = getStation m si :=
    getD_indep m.stations si hsi _ _
  have hgd2 : (m.stations.set si
        { getStation m si with vehicles := (getStation m si).vehicles.erase vid }).getD ni
        { getStation m ni with vehicles := (getStation m ni).vehicles ++ [vid] }
      = getStation m ni := by
    rw [getD_set_ne _ (fun hh => hne hh.symm)]
    exact getD_indep m.stations ni hni _ _
  rw [hgd1] at h1
  rw [hgd2] at h2
  simp only [VECStationAgent.load] at h1 h2 ⊢
  simp only [List.length_append, List.length_cons, List.length_nil] at h2
  omega

/-- Neighbor well-formedness only depends on the station-shape data. -/
theorem NeighborsWF_of_shape {m m' : VECModel} (hsh : StationsShape m m')
    (hN : NeighborsWF m) : NeighborsWF m' := by
  intro si hsi n hn
  obtain ⟨l, hl⟩ := hsh.2 si
  rw [hl] at hn
  rw [hsh.1] at hsi ⊢
  exact hN si hsi n hn

/-- A handover attempt (whatever its outcome) preserves consistency and the
total load, and keeps every other vehicle of the source station served
there. -/
theorem attempt_handover_preserve (m : VECModel) (si vid : ℕ)
    (hC : Consistent m) (hN : NeighborsWF m) (hsi : si < m.stations.length)
    (hmem : vid ∈ (getStation m si).vehicles) :
    Consistent (attempt_handover m si vid) ∧
    sumLoad (attempt_handover m si vid) = sumLoad m ∧
    ∀ w ∈ (getStation m si).vehicles, w ≠ vid →
      w ∈ (getStation (attempt_handover m si vid) si).vehicles := by
  unfold attempt_handover
  cases htgt : handover_target m si vid with
  | none =>
    exact ⟨hC, rfl, fun w hw _ => hw⟩
  | some ni =>
    obtain ⟨hnb, hne, _, _, _⟩ := handover_target_some_spec m si vid ni htgt
    have hni : ni < m.stations.length := hN si hsi ni hnb
    refine ⟨applyHandover_consistent m si vid ni hC hsi hni hne hmem,
      applyHandover_sumLoad m si vid ni hsi hni hne hmem, fun w hw hwne => ?_⟩
    rw [getStation_applyHandover_si m vid hne hsi]
    exact ((hC si hsi).1.mem_erase_iff).mpr ⟨hwne, hw⟩

/-- One station's step preserves consistency, neighbor well-formedness and
the total load. -/
theorem station_step_fold_aux (si : ℕ) :
    ∀ (snap : List ℕ) (acc : VECModel), Consistent acc → NeighborsWF acc →
    si < acc.stations.length → snap.Nodup →
    (∀ w ∈ snap, w ∈ (getStation acc si).vehicles) →
    Consistent (snap.foldl
      (fun a w => if is_vehicle_exiting (getStation a si) (getVehicle a w) then
        attempt_handover a si w else a) acc) ∧
    sumLoad (snap.foldl
      (fun a w => if is_vehicle_exiting (getStation a si) (getVehicle a w) then
        attempt_handover a si w else a) acc) = sumLoad acc := by
  intro snap
  induction snap with
  | nil => exact fun acc hC _ _ _ _ => ⟨hC, rfl⟩
  | cons vid rest ih =>
    intro acc hC hN hsi hnd hsnap
    rw [List.foldl_cons]
    have hmem : vid ∈ (getStation acc si).vehicles := hsnap vid (List.mem_cons_self _ _)
    by_cases hex : is_vehicle_exiting (getStation acc si) (getVehicle acc vid) = true
    · rw [if_pos hex]
      obtain ⟨hC2, hsum2, hkeep⟩ := attempt_handover_preserve acc si vid hC hN hsi hmem
      have hsh := attempt_handover_stationsShape acc si vid
      have hN2 := NeighborsWF_of_shape hsh hN
      have hsi2 : si < (attempt_handover acc si vid).stations.length := by
        rw [hsh.1]; exact hsi
      have hrest : ∀ w ∈ rest, w ∈ (getStation (attempt_handover acc si vid) si).vehicles := by
        intro w hw
        have hwvid : w ≠ vid := by
          intro hh
          subst hh
          exact (List.nodup_cons.mp hnd).1 hw
        exact hkeep w (hsnap w (List.mem_cons_of_mem _ hw)) hwvid
      obtain ⟨hCf, hsumf⟩ := ih (attempt_handover acc si vid) hC2 hN2 hsi2
        (List.nodup_cons.mp hnd).2 hrest
      exact ⟨hCf, hsumf.trans hsum2⟩
    · rw [if_neg hex]
      exact ih acc hC hN hsi (List.nodup_cons.mp hnd).2
        (fun w hw => hsnap w (List.mem_cons_of_mem _ hw))

theorem station_step_preserve (m : VECModel) (si : ℕ)
    (hC : Consistent m) (hN : NeighborsWF m) (hsi : si < m.stations.length) :
    Consistent (station_step m si) ∧ sumLoad (station_step m si) = sumLoad m :=
  station_step_fold_aux si (getStation m si).vehicles m hC hN hsi (hC si hsi).1
    (fun _ h => h)

/-- The whole station phase preserves consistency, neighbor
well-formedness and the total load. -/
theorem stationPhase_preserve (m : VECModel)
    (hC : Consistent m) (hN : NeighborsWF m) :
    Consistent (stationPhase m) ∧ sumLoad (stationPhase m) = sumLoad m := by
  unfold stationPhase
  have hidx : ∀ i ∈ List.range m.stations.length, i < m.stations.length := by
    intro i hi; exact List.mem_range.mp hi
  revert hidx
  generalize List.range m.stations.length = idxs
  intro hidx
  induction idxs generalizing m with
  | nil => exact ⟨hC, rfl⟩
  | cons si rest ih =>
    rw [List.foldl_cons]
    have hsi : si < m.stations.length := hidx si (List.mem_cons_self _ _)
    obtain ⟨hC2, hsum2⟩ := station_step_preserve m si hC hN hsi
    have hsh := station_step_stationsShape m si
    have hN2 := NeighborsWF_of_shape hsh hN
    have hidx2 : ∀ i ∈ rest, i < (station_step m si).stations.length := by
      intro i hi
      rw [hsh.1]
      exact hidx i (List.mem_cons_of_mem _ hi)
    obtain ⟨hCf, hsumf⟩ := ih (station_step m si) hC2 hN2 hidx2
    exact ⟨hCf, hsumf.trans hsum2⟩

/-! ### The vehicle phase: replay never touches memberships or references -/

theorem do_step_ok_shape {v : VehicleAgent} {ts : ℤ} {v' : VehicleAgent}
    (h : do_step v ts = .ok v') :
    v'.station = v.station ∧ v'.trace = v.trace ∧ v'.ts = v.ts := by
  unfold do_step at h
  split at h
  · cases h
  next s hg =>
    split at h
    · cases h
    next h1 =>
      split at h
      next h2 =>
        cases h
        exact ⟨rfl, rfl, rfl⟩
      next h2 =>
        split at h
        · cases h
        next s2 hg2 =>
          split at h
          · cases h
          next h3 =>
            split at h
            · cases h
            next h4 =>
              cases h
              exact ⟨rfl, rfl, rfl⟩

theorem step_ok_shape {v v' : VehicleAgent} (h : VehicleAgent.step v = .ok v') :
    v'.station = v.station ∧ v'.trace = v.trace := by
  simp only [VehicleAgent.step] at h
  by_cases hc : v.trace.first_ts ≤ external_ts (v.ts + 1)
      ∧ external_ts (v.ts + 1) ≤ v.trace.last_ts
  · rw [if_pos hc] at h
    cases hd : do_step { v with ts := v.ts + 1 } (external_ts (v.ts + 1)) with
    | error e => rw [hd] at h; cases h
    | ok w =>
      rw [hd] at h
      obtain ⟨hst, htr, _⟩ := do_step_ok_shape hd
      simp only [Except.map] at h
      cases h
      split
      · exact ⟨hst, htr⟩
      · exact ⟨hst, htr⟩
  · rw [if_neg hc] at h
    simp only [Except.map] at h
    cases h
    split
    · exact ⟨rfl, rfl⟩
    · exact ⟨rfl, rfl⟩

theorem vstepAt_ok {m m' : VECModel} {vid : ℕ} (h : vstepAt m vid = .ok m') :
    m'.stations = m.stations ∧ m'.vehicles.length = m.vehicles.length ∧
    ∀ w, (getVehicle m' w).station = (getVehicle m w).station := by
  unfold vstepAt at h
  cases hs : VehicleAgent.step (getVehicle m vid) with
  | error e => rw [hs] at h; cases h
  | ok v' =>
    rw [hs] at h
    simp only [Except.map] at h
    cases h
    refine ⟨rfl, List.length_set .., fun w => ?_⟩
    by_cases hw : w = vid
    · subst hw
      by_cases hlt : w < m.vehicles.length
      · show ((m.vehicles.set w v').getD w dfltVehicle).station = (getVehicle m w).station
        rw [getD_set_self _ hlt]
        exact (step_ok_shape hs).1
      · show ((m.vehicles.set w v').getD w dfltVehicle).station = (getVehicle m w).station
        rw [set_oob _ hlt]
        rfl
    · show ((m.vehicles.set vid v').getD w dfltVehicle).station = (getVehicle m w).station
      rw [getD_set_ne _ (fun hh => hw hh.symm)]
      rfl

theorem vsteps_ok : ∀ (idxs : List ℕ) (acc m' : VECModel),
    idxs.foldlM vstepAt acc = .ok m' →
    m'.stations = acc.stations ∧ m'.vehicles.length = acc.vehicles.length ∧
    ∀ w, (getVehicle m' w).station = (getVehicle acc w).station := by
  intro idxs
  induction idxs with
  | nil =>
    intro acc m' h
    cases h
    exact ⟨rfl, rfl, fun _ => rfl⟩
  | cons i rest ih =>
    intro acc m' h
    rw [List.foldlM_cons] at h
    cases hv : vstepAt acc i with
    | error e =>
      rw [hv] at h
      cases h
    | ok m1 =>
      rw [hv] at h
      obtain ⟨h1, h2, h3⟩ := vstepAt_ok hv
      obtain ⟨g1, g2, g3⟩ := ih m1 m' h
      exact ⟨g1.trans h1, g2.trans h2, fun w => (g3 w).trans (h3 w)⟩

theorem vehiclePhase_ok {m m' : VECModel} (h : vehiclePhase m = .ok m') :
    m'.stations = m.stations ∧ m'.vehicles.length = m.vehicles.length ∧
    ∀ w, (getVehicle m' w).station = (getVehicle m w).station :=
  vsteps_ok _ m m' h

/-! ### The scheduler tick decomposes into the two phases -/

theorem stationRefs_foldlM : ∀ (idxs : List ℕ) (acc : VECModel),
    ((idxs.map AgentRef.stationRef).foldlM stepAgent acc)
      = .ok (idxs.foldl station_step acc) := by
  intro idxs
  induction idxs with
  | nil => intro acc; rfl
  | cons i rest ih =>
    intro acc
    rw [List.map_cons, List.foldlM_cons, List.foldl_cons]
    show (Except.ok (station_step acc i)).bind _ = _
    rw [Except.bind]
    exact ih (station_step acc i)

theorem vehicleRefs_foldlM : ∀ (idxs : List ℕ) (acc : VECModel),
    ((idxs.map AgentRef.vehicleRef).foldlM stepAgent acc)
      = idxs.foldlM vstepAt acc := by
  intro idxs
  induction idxs with
  | nil => intro acc; rfl
  | cons i rest ih =>
    intro acc
    rw [List.map_cons, List.foldlM_cons, List.foldlM_cons]
    show (vstepAt acc i).bind _ = (vstepAt acc i).bind _
    cases hv : vstepAt acc i with
    | error e => rfl
    | ok m1 =>
      rw [Except.bind, Except.bind]
      exact ih m1

/-- Decomposition: `tick` is exactly: all stations step (in creation order), then all
vehicles step (in creation order). -/
theorem tick_eq (m : VECModel) : tick m = vehiclePhase (stationPhase m) := by
  unfold tick agentOrder
  rw [List.foldlM_append, stationRefs_foldlM]
  show ((List.range m.vehicles.length).map AgentRef.vehicleRef).foldlM stepAgent
      ((List.range m.stations.length).foldl station_step m) = _
  rw [vehicleRefs_foldlM]
  unfold vehiclePhase stationPhase
  rw [show ((List.range m.stations.length).foldl station_step m).vehicles.length
      = m.vehicles.length from (stationPhase_vehiclesShape m).1]

/-- A full tick of a consistent, well-formed model yields a consistent,
well-formed model with unchanged total load. -/
theorem tick_preserve {m m' : VECModel} (hC : Consistent m) (hN : NeighborsWF m)
    (h : tick m = .ok m') :
    Consistent m' ∧ NeighborsWF m' ∧ sumLoad m' = sumLoad m ∧
    m'.vehicles.length = m.vehicles.length := by
  rw [tick_eq] at h
  obtain ⟨hC1, hsum1⟩ := stationPhase_preserve m hC hN
  have hN1 := NeighborsWF_of_shape (stationPhase_stationsShape m) hN
  obtain ⟨hst, hlen, href⟩ := vehiclePhase_ok h
  have hgs : ∀ j, getStation m' j = getStation (stationPhase m) j := fun j => by
    unfold getStation
    rw [hst]
  refine ⟨?_, ?_, ?_, ?_⟩
  · intro j hj
    rw [show m'.stations.length = (stationPhase m).stations.length from by rw [hst]] at hj
    rw [hgs j]
    refine ⟨(hC1 j hj).1, fun w hw => ?_⟩
    obtain ⟨hb, hr⟩ := (hC1 j hj).2 w hw
    rw [hlen, href w]
    exact ⟨hb, hr⟩
  · intro j hj n hn
    rw [show m'.stations.length = (stationPhase m).stations.length from by rw [hst]] at hj ⊢
    rw [hgs j] at hn
    exact hN1 j hj n hn
  · rw [show sumLoad m' = sumLoad (stationPhase m) from by unfold sumLoad; rw [hst]]
    exact hsum1
  · rw [hlen]
    exact (stationPhase_vehiclesShape m).1

/-! ### Construction invariants -/

theorem getD_map_range {α : Type} (f : ℕ → α) {i n : ℕ} (h : i < n) (d : α) :
    ((List.range n).map f).getD i d = f i := by
  rw [List.getD_eq_getElem?_getD, List.getElem?_map, List.getElem?_range h]
  rfl

theorem getD_concat_self {α : Type} (l : List α) (a d : α) :
    (l ++ [a]).getD l.length d = a := by
  rw [List.getD_eq_getElem?_getD, List.getElem?_concat_length]
  rfl

theorem argmin_go_prop (P : ℕ → Prop) (f : ℕ → ℚ) :
    ∀ (l : List ℕ) (best : ℕ) (bv : ℚ), (∀ i ∈ l, P i) → P best →
    P (argmin_go f l best bv) := by
  intro l
  induction l with
  | nil => intro best bv _ hb; exact hb
  | cons i rest ih =>
    intro best bv hl hb
    simp only [argmin_go]
    by_cases hlt : f i < bv
    · rw [if_pos hlt]
      exact ih i (f i) (fun j hj => hl j (List.mem_cons_of_mem _ hj))
        (hl i (List.mem_cons_self _ _))
    · rw [if_neg hlt]
      exact ih best bv (fun j hj => hl j (List.mem_cons_of_mem _ hj)) hb

theorem argmin_station_lt {sts : List VECStationAgent} {p : Pt} {i : ℕ}
    (h : argmin_station sts p = some i) : i < sts.length := by
  unfold argmin_station at h
  cases sts with
  | nil => cases h
  | cons s rest =>
    cases h
    refine argmin_go_prop (fun j => j < (s :: rest).length) _ _ _ _ ?_ ?_
    · intro j hj
      exact List.mem_range.mp (List.mem_of_mem_tail hj)
    · simp

/-- Spawning one vehicle preserves consistency, neighbor well-formedness,
and increments the total load together with the vehicle count. -/
theorem spawn_preserve (width height : ℚ) (m m' : VECModel) (t : VehicleTrace)
    (hC : Consistent m) (hN : NeighborsWF m)
    (hsp : spawn_vehicle width height m t = .ok m') :
    Consistent m' ∧ NeighborsWF m' ∧ sumLoad m' = sumLoad m + 1 ∧
    m'.vehicles.length = m.vehicles.length + 1 := by
  simp only [spawn_vehicle] at hsp
  cases hv1 : (if t.first_ts = 0 then
      do_step { ts := 0, trace_i := 0, trace := t, active := false, dir := (1, 0),
                pos := (0, 0), station := none } 0
    else .ok { ts := 0, trace_i := 0, trace := t, active := false, dir := (1, 0),
               pos := (0, 0), station := none }) with
  | error e => rw [hv1] at hsp; cases hsp
  | ok v1 =>
    rw [hv1] at hsp
    show Consistent m' ∧ _
    simp only [Except.bind] at hsp
    split at hsp
    · cases hsp
    next si hargmin =>
      have hsi : si < m.stations.length := argmin_station_lt hargmin
      cases hsp
      constructor
      · intro j hj
        rw [List.length_set] at hj
        by_cases hjsi : j = si
        · subst hjsi
          rw [show getStation _ j = { getStation m j with
                vehicles := (getStation m j).vehicles ++ [m.vehicles.length] } from by
              simp only [getStation_mk]
              rw [getD_set_self _ hj]]
          refine ⟨?_, fun w hw => ?_⟩
          · rw [List.nodup_append]
            refine ⟨(hC j hj).1, List.nodup_singleton _, fun w hw hw2 => ?_⟩
            rw [List.mem_singleton.mp hw2] at hw
            exact absurd ((hC j hj).2 _ hw).1 (lt_irrefl _)
          · rcases List.mem_append.mp hw with hw | hw
            · obtain ⟨hb, hr⟩ := (hC j hj).2 w hw
              refine ⟨by simpa using Nat.lt_succ_of_lt hb, ?_⟩
              show ((m.vehicles ++ [_]).getD w dfltVehicle).station = some j
              rw [List.getD_append _ _ _ _ hb]
              exact hr
            · rw [List.mem_singleton.mp hw]
              refine ⟨by simp, ?_⟩
              show ((m.vehicles ++ [_]).getD m.vehicles.length dfltVehicle).station = some j
              rw [getD_concat_self]
        · rw [show getStation _ j = getStation m j from by
              simp only [getStation_mk]
              rw [getD_set_ne _ (fun hh => hjsi hh.symm)]
              rfl]
          refine ⟨(hC j hj).1, fun w hw => ?_⟩
          obtain ⟨hb, hr⟩ := (hC j hj).2 w hw
          refine ⟨by simpa using Nat.lt_succ_of_lt hb, ?_⟩
          show ((m.vehicles ++ [_]).getD w dfltVehicle).station = some j
          rw [List.getD_append _ _ _ _ hb]
          exact hr
      refine ⟨?_, ?_, by simp⟩
      · intro j hj n hn
        rw [List.length_set] at hj ⊢
        by_cases hjsi : j = si
        · subst hjsi
          rw [show getStation _ j = { getStation m j with
                vehicles := (getStation m j).vehicles ++ [m.vehicles.length] } from by
              simp only [getStation_mk]
              rw [getD_set_self _ hj]] at hn
          exact hN j hj n hn
        · rw [show getStation _ j = getStation m j from by
              simp only [getStation_mk]
              rw [getD_set_ne _ (fun hh => hjsi hh.symm)]
              rfl] at hn
          exact hN j hj n hn
      · have h1 := sum_map_set VECStationAgent.load m.stations si
          { getStation m si with
              vehicles := (getStation m si).vehicles ++ [m.vehicles.length] } hsi
        have hgd : m.stations.getD si
            { getStation m si with
                vehicles := (getStation m si).vehicles ++ [m.vehicles.length] }
            = getStation m si := getD_indep m.stations si hsi _ _
        rw [hgd] at h1
        simp only [sumLoad]
        simp only [VECStationAgent.load, List.length_append, List.length_cons,
          List.length_nil] at h1 ⊢
        omega

theorem mkStations_length (width height : ℚ) : (mkStations width height).length = 4 := by
  simp [mkStations]

theorem base_consistent (width height : ℚ) :
    Consistent { stations := mkStations width height, vehicles := [] } := by
  intro j hj
  rw [show ({ stations := mkStations width height, vehicles := [] } : VECModel).stations.length
      = 4 from mkStations_length width height] at hj
  rw [show getStation { stations := mkStations width height, vehicles := [] } j
      = (mkStations width height).getD j dfltStation from rfl]
  unfold mkStations
  rw [getD_map_range _ hj]
  exact ⟨List.nodup_nil, by simp⟩

theorem base_neighborsWF (width height : ℚ) :
    NeighborsWF { stations := mkStations width height, vehicles := [] } := by
  intro j hj n hn
  rw [show ({ stations := mkStations width height, vehicles := [] } : VECModel).stations.length
      = 4 from mkStations_length width height] at hj ⊢
  rw [show getStation { stations := mkStations width height, vehicles := [] } j
      = (mkStations width height).getD j dfltStation from rfl] at hn
  unfold mkStations at hn
  rw [getD_map_range _ hj] at hn
  simp only [List.mem_cons, List.mem_singleton, List.not_mem_nil, or_false] at hn
  rcases hn with hn | hn <;> rw [hn] <;> exact Nat.mod_lt _ (by norm_num)

theorem base_sumLoad (width height : ℚ) :
    sumLoad { stations := mkStations width height, vehicles := [] } = 0 := rfl

theorem spawnFold_preserve (width height : ℚ) :
    ∀ (ts : List VehicleTrace) (acc m' : VECModel),
    Consistent acc → NeighborsWF acc → sumLoad acc = acc.vehicles.length →
    ts.foldlM (spawn_vehicle width height) acc = .ok m' →
    Consistent m' ∧ NeighborsWF m' ∧ sumLoad m' = m'.vehicles.length := by
  intro ts
  induction ts with
  | nil =>
    intro acc m' hC hN hS h
    cases h
    exact ⟨hC, hN, hS⟩
  | cons t rest ih =>
    intro acc m' hC hN hS h
    rw [List.foldlM_cons] at h
    cases hsp : spawn_vehicle width height acc t with
    | error e => rw [hsp] at h; cases h
    | ok m1 =>
      rw [hsp] at h
      obtain ⟨hC1, hN1, hSum1, hLen1⟩ := spawn_preserve width height acc m1 t hC hN hsp
      exact ih m1 m' hC1 hN1 (by omega) h

/-- The constructed model is consistent, neighbor-well-formed, and its
total load equals its vehicle count. -/
theorem mkModel_invariants (width height : ℚ) (traces : List VehicleTrace) (m' : VECModel)
    (h : mkModel width height traces = .ok m') :
    Consistent m' ∧ NeighborsWF m' ∧ sumLoad m' = m'.vehicles.length :=
  spawnFold_preserve width height traces _ m' (base_consistent width height)
    (base_neighborsWF width height) (base_sumLoad width height) h

/-! ### The station phase never reads the `active` flag -/

theorem getStation_setActive (m : VECModel) (vid : ℕ) (b : Bool) (si : ℕ) :
    getStation (setActive m vid b) si = getStation m si := rfl

theorem setActive_oob (m : VECModel) {vid : ℕ} (h : ¬ vid < m.vehicles.length) (b : Bool) :
    setActive m vid b = m := by
  unfold setActive
  rw [set_oob _ h]

theorem getVehicle_setActive_self (m : VECModel) {vid : ℕ} (h : vid < m.vehicles.length)
    (b : Bool) :
    getVehicle (setActive m vid b) vid = { getVehicle m vid with active := b } := by
  unfold setActive getVehicle
  exact getD_set_self _ h _ _

theorem getVehicle_setActive_other (m : VECModel) {vid w : ℕ} (h : w ≠ vid) (b : Bool) :
    getVehicle (setActive m vid b) w = getVehicle m w := by
  unfold setActive getVehicle
  exact getD_set_ne _ (fun hh => h hh.symm) _ _

theorem getVehicle_setActive_pos_dir (m : VECModel) (vid : ℕ) (b : Bool) (w : ℕ) :
    (getVehicle (setActive m vid b) w).pos = (getVehicle m w).pos ∧
    (getVehicle (setActive m vid b) w).dir = (getVehicle m w).dir := by
  by_cases hw : w = vid
  · subst hw
    by_cases hlt : w < m.vehicles.length
    · rw [getVehicle_setActive_self m hlt b]
      exact ⟨rfl, rfl⟩
    · rw [setActive_oob m hlt b]
      exact ⟨rfl, rfl⟩
  · rw [getVehicle_setActive_other m hw b]
    exact ⟨rfl, rfl⟩

theorem hoscan_congr (m m2 : VECModel) (v v2 : VehicleAgent)
    (hst : ∀ n, getStation m n = getStation m2 n)
    (hpos : v.pos = v2.pos) (hdir : v.dir = v2.dir) :
    ∀ l, hoscan m v l = hoscan m2 v2 l := by
  intro l
  induction l with
  | nil => rfl
  | cons p rest ih =>
    obtain ⟨r, n⟩ := p
    simp only [hoscan, hst n, hpos, hdir, ih]

theorem handover_target_setActive (m : VECModel) (vid : ℕ) (b : Bool) (si w : ℕ) :
    handover_target (setActive m vid b) si w = handover_target m si w := by
  simp only [handover_target]
  obtain ⟨hpos, hdir⟩ := getVehicle_setActive_pos_dir m vid b w
  have hcand : handover_candidates (setActive m vid b) si
      (getVehicle (setActive m vid b) w).pos = handover_candidates m si (getVehicle m w).pos := by
    simp only [handover_candidates, hpos]
    rfl
  rw [hcand]
  exact hoscan_congr (setActive m vid b) m _ (getVehicle m w) (fun _ => rfl) hpos hdir _

theorem applyHandover_setActive (m : VECModel) (vid : ℕ) (b : Bool) (si w ni : ℕ) :
    applyHandover (setActive m vid b) si w ni
      = setActive (applyHandover m si w ni) vid b := by
  by_cases hvid : vid < m.vehicles.length
  · unfold applyHandover
    simp only [getStation_setActive]
    unfold setActive
    simp only [getVehicle_mk]
    congr 1
    by_cases hw : w = vid
    · subst hw
      rw [getD_set_self _ hvid, List.set_set, getD_set_self _ (by simpa using hvid),
        List.set_set]
    · rw [getD_set_ne _ (fun hh => hw hh.symm),
        getD_set_ne _ hw, List.set_comm _ _ _ (fun hh => hw hh.symm)]
      rfl
  · rw [setActive_oob m hvid b, setActive_oob _ (by
      rw [applyHandover_vehicles_length]
      exact hvid) b]

theorem attempt_handover_setActive (m : VECModel) (vid : ℕ) (b : Bool) (si w : ℕ) :
    attempt_handover (setActive m vid b) si w
      = setActive (attempt_handover m si w) vid b := by
  unfold attempt_handover
  rw [handover_target_setActive]
  cases handover_target m si w with
  | none => rfl
  | some ni => exact applyHandover_setActive m vid b si w ni

theorem is_vehicle_exiting_congr (s : VECStationAgent) (v v2 : VehicleAgent)
    (hpos : v.pos = v2.pos) (hdir : v.dir = v2.dir) :
    is_vehicle_exiting s v = is_vehicle_exiting s v2 := by
  simp only [is_vehicle_exiting, hpos, hdir]

theorem station_body_setActive (m : VECModel) (vid : ℕ) (b : Bool) (si w : ℕ) :
    (if is_vehicle_exiting (getStation (setActive m vid b) si)
        (getVehicle (setActive m vid b) w) then
      attempt_handover (setActive m vid b) si w else setActive m vid b)
    = setActive (if is_vehicle_exiting (getStation m si) (getVehicle m w) then
        attempt_handover m si w else m) vid b := by
  obtain ⟨hpos, hdir⟩ := getVehicle_setActive_pos_dir m vid b w
  rw [getStation_setActive,
    is_vehicle_exiting_congr _ _ (getVehicle m w) hpos hdir]
  by_cases hex : is_vehicle_exiting (getStation m si) (getVehicle m w) = true
  · rw [if_pos hex, if_pos hex]
    exact attempt_handover_setActive m vid b si w
  · rw [if_neg hex, if_neg hex]

theorem station_fold_setActive (si vid : ℕ) (b : Bool) :
    ∀ (snap : List ℕ) (m : VECModel),
    snap.foldl (fun a w => if is_vehicle_exiting (getStation a si) (getVehicle a w) then
        attempt_handover a si w else a) (setActive m vid b)
    = setActive (snap.foldl (fun a w => if is_vehicle_exiting (getStation a si)
        (getVehicle a w) then attempt_handover a si w else a) m) vid b := by
  intro snap
  induction snap with
  | nil => intro m; rfl
  | cons w rest ih =>
    intro m
    rw [List.foldl_cons, List.foldl_cons, station_body_setActive]
    exact ih _

theorem station_step_setActive (m : VECModel) (vid : ℕ) (b : Bool) (si : ℕ) :
    station_step (setActive m vid b) si = setActive (station_step m si) vid b := by
  unfold station_step
  rw [show (getStation (setActive m vid b) si).vehicles = (getStation m si).vehicles from rfl]
  exact station_fold_setActive si vid b _ m

theorem stationPhase_setActive (m : VECModel) (vid : ℕ) (b : Bool) :
    stationPhase (setActive m vid b) = setActive (stationPhase m) vid b := by
  unfold stationPhase
  rw [show (setActive m vid b).stations.length = m.stations.length from rfl]
  generalize List.range m.stations.length = idxs
  induction idxs generalizing m with
  | nil => rfl
  | cons si rest ih =>
    rw [List.foldl_cons, List.foldl_cons, station_step_setActive]
    exact ih _

/-! ### Characterising candidate ranking and the scan -/

theorem hoscan_eq_find (m : VECModel) (v : VehicleAgent) :
    ∀ l : List (ℚ × ℕ), l.Pairwise (fun a b => hoLe a b = true) →
    hoscan m v l = (l.find? (hoAccept m v)).map (fun p => p.2) := by
  intro l
  induction l with
  | nil => intro _; rfl
  | cons p rest ih =>
    intro hp
    obtain ⟨r, n⟩ := p
    simp only [hoscan]
    by_cases h1 : 1 < r
    · rw [if_pos h1]
      have hhead : ¬ hoAccept m v (r, n) = true := by
        simp only [hoAccept, Bool.and_eq_true, decide_eq_true_eq]
        intro hcon
        exact absurd hcon.1 (not_le.mpr h1)
      rw [List.find?_cons_of_neg _ hhead]
      have hrest : rest.find? (hoAccept m v) = none := by
        rw [List.find?_eq_none]
        intro x hx hcon
        have hle := List.rel_of_pairwise_cons hp hx
        simp only [hoLe, decide_eq_true_eq] at hle
        simp only [hoAccept, Bool.and_eq_true, decide_eq_true_eq] at hcon
        exact absurd (le_trans hle hcon.1) (not_le.mpr h1)
      rw [hrest]
      rfl
    · rw [if_neg h1]
      by_cases h2 : (getStation m n).load < (getStation m n).capacity
          ∧ moving_towards_vec v.pos v.dir (getStation m n).pos = true
      · rw [if_pos h2]
        have hacc : hoAccept m v (r, n) = true := by
          simp only [hoAccept, Bool.and_eq_true, decide_eq_true_eq]
          exact ⟨not_lt.mp h1, h2.1, h2.2⟩
        rw [List.find?_cons_of_pos _ hacc]
        rfl
      · rw [if_neg h2]
        have hhead : ¬ hoAccept m v (r, n) = true := by
          simp only [hoAccept, Bool.and_eq_true, decide_eq_true_eq]
          intro hcon
          exact h2 ⟨hcon.2.1, hcon.2.2⟩
        rw [List.find?_cons_of_neg _ hhead]
        exact ih (List.pairwise_cons.mp hp).2

theorem handover_candidates_mem (m : VECModel) (si : ℕ) (p : Pt) (r : ℚ) (n : ℕ) :
    (r, n) ∈ handover_candidates m si p ↔
      n ∈ (getStation m si).neighbors ∧ n ≠ si ∧ r = ratio_sq (getStation m n) p := by
  simp only [handover_candidates, List.mem_map, List.mem_filter, Prod.mk.injEq,
    decide_eq_true_eq]
  constructor
  · rintro ⟨n2, ⟨hmem, hne⟩, hr, hn⟩
    subst hn
    exact ⟨hmem, hne, hr.symm⟩
  · rintro ⟨hmem, hne, hr⟩
    exact ⟨n, ⟨hmem, hne⟩, hr.symm, rfl⟩

/-! ### The squared ranking agrees with the source's `distance / range` -/

theorem ratio_sq_le_iff (s1 s2 : VECStationAgent) (p : Pt)
    (h1 : 0 < s1.range) (h2 : 0 < s2.range) :
    (ratio_sq s1 p ≤ ratio_sq s2 p ↔
      distance (toR s1.pos) (toR p) / ((s1.range : ℚ) : ℝ)
        ≤ distance (toR s2.pos) (toR p) / ((s2.range : ℚ) : ℝ)) := by
  have hd1 : (0:ℝ) ≤ ((distSq s1.pos p : ℚ) : ℝ) := by exact_mod_cast distSq_nonneg _ _
  have hd2 : (0:ℝ) ≤ ((distSq s2.pos p : ℚ) : ℝ) := by exact_mod_cast distSq_nonneg _ _
  have hr1 : (0:ℝ) < ((s1.range : ℚ) : ℝ) := by exact_mod_cast h1
  have hr2 : (0:ℝ) < ((s2.range : ℚ) : ℝ) := by exact_mod_cast h2
  have e1 : Real.sqrt ((distSq s1.pos p : ℚ) : ℝ) * ((s2.range : ℚ) : ℝ)
        * (Real.sqrt ((distSq s1.pos p : ℚ) : ℝ) * ((s2.range : ℚ) : ℝ))
      = ((distSq s1.pos p : ℚ) : ℝ) * ((s2.range : ℚ) : ℝ) ^ 2 := by
    rw [mul_mul_mul_comm, Real.mul_self_sqrt hd1]
    ring
  have e2 : Real.sqrt ((distSq s2.pos p : ℚ) : ℝ) * ((s1.range : ℚ) : ℝ)
        * (Real.sqrt ((distSq s2.pos p : ℚ) : ℝ) * ((s1.range : ℚ) : ℝ))
      = ((distSq s2.pos p : ℚ) : ℝ) * ((s1.range : ℚ) : ℝ) ^ 2 := by
    rw [mul_mul_mul_comm, Real.mul_self_sqrt hd2]
    ring
  have key : (Real.sqrt ((distSq s1.pos p : ℚ) : ℝ) * ((s2.range : ℚ) : ℝ)
      ≤ Real.sqrt ((distSq s2.pos p : ℚ) : ℝ) * ((s1.range : ℚ) : ℝ))
      ↔ ((distSq s1.pos p : ℚ) : ℝ) * ((s2.range : ℚ) : ℝ) ^ 2
        ≤ ((distSq s2.pos p : ℚ) : ℝ) * ((s1.range : ℚ) : ℝ) ^ 2 := by
    rw [mul_self_le_mul_self_iff (mul_nonneg (Real.sqrt_nonneg _) hr2.le)
      (mul_nonneg (Real.sqrt_nonneg _) hr1.le), e1, e2]
  rw [distance_toR, distance_toR, div_le_div_iff₀ hr1 hr2, key]
  unfold ratio_sq
  rw [div_le_div_iff₀ (pow_pos h1 2) (pow_pos h2 2)]
  constructor
  · intro hh
    exact_mod_cast hh
  · intro hh
    exact_mod_cast hh

theorem ratio_sq_gt_one_iff (s : VECStationAgent) (p : Pt) (h : 0 < s.range) :
    (1 < ratio_sq s p ↔ 1 < distance (toR s.pos) (toR p) / ((s.range : ℚ) : ℝ)) := by
  have hr : (0:ℝ) < ((s.range : ℚ) : ℝ) := by exact_mod_cast h
  rw [distance_toR, one_lt_div hr, Real.lt_sqrt (le_of_lt hr)]
  unfold ratio_sq
  rw [one_lt_div (by positivity)]
  constructor
  · intro hh
    exact_mod_cast hh
  · intro hh
    exact_mod_cast hh

/-! ### Decidability of the invariants on concrete models -/

theorem consistent_iff_ball (m : VECModel) : Consistent m ↔
    ∀ si ∈ List.range m.stations.length,
      (getStation m si).vehicles.Nodup ∧
      ∀ vid ∈ (getStation m si).vehicles,
        vid < m.vehicles.length ∧ (getVehicle m vid).station = some si := by
  unfold Consistent
  constructor
  · intro h si hsi
    exact h si (List.mem_range.mp hsi)
  · intro h si hsi
    exact h si (List.mem_range.mpr hsi)

theorem neighborsWF_iff_ball (m : VECModel) : NeighborsWF m ↔
    ∀ si ∈ List.range m.stations.length,
      ∀ n ∈ (getStation m si).neighbors, n < m.stations.length := by
  unfold NeighborsWF
  constructor
  · intro h si hsi
    exact h si (List.mem_range.mp hsi)
  · intro h si hsi
    exact h si (List.mem_range.mpr hsi)

instance consistentDecidable (m : VECModel) : Decidable (Consistent m) :=
  decidable_of_iff _ (consistent_iff_ball m).symm

instance neighborsWFDecidable (m : VECModel) : Decidable (NeighborsWF m) :=
  decidable_of_iff _ (neighborsWF_iff_ball m).symm

/-- Claim C1: bidirectional served-set consistency (every vehicle in a
station's served set points back at that station, with duplicate-free
served sets) holds in the freshly constructed model and after every tick
of a consistent, well-formed model; moreover a handover attempt either
leaves the model unchanged or applies the three mutations — remove from
the source's served set, append to the target's served set, repoint the
vehicle's station reference — as the single indivisible update
`applyHandover`, so no intermediate state is observable between ticks. -/
theorem C1_served_set_consistency :
    (∀ (width height : ℚ) (traces : List VehicleTrace) (m0 : VECModel),
      mkModel width height traces = .ok m0 → Consistent m0) ∧
    (∀ (m m' : VECModel), Consistent m → NeighborsWF m → tick m = .ok m' →
      Consistent m') ∧
    (∀ (m : VECModel) (si vid : ℕ),
      attempt_handover m si vid = m ∨
      ∃ ni, handover_target m si vid = some ni ∧
        attempt_handover m si vid = applyHandover m si vid ni) := by
  refine ⟨fun w h ts m0 hok => (mkModel_invariants w h ts m0 hok).1,
    fun m m' hC hN hok => (tick_preserve hC hN hok).1,
    fun m si vid => ?_⟩
  unfold attempt_handover
  cases htgt : handover_target m si vid with
  | none => exact Or.inl rfl
  | some ni => exact Or.inr ⟨ni, rfl, rfl⟩

/-- Witness for `C1_served_set_consistency`: the empty 200×200 model is
consistent. -/
theorem C1_served_set_consistency_witness :
    Consistent { stations := mkStations 200 200, vehicles := [] } :=
  C1_served_set_consistency.1 200 200 [] _ rfl

/-- Claim C2: handover candidate selection.  The candidate list is exactly
the configured neighbors minus self, keyed by the (squared) ratio
`distance(candidate, vehicle)/candidate.range`; it is sorted ascending by
a stable sort (equal ratios keep the original neighbor order); the scan
result equals the first candidate in sorted order whose ratio is ≤ 1, with
free capacity, toward which the vehicle moves (the break at ratio > 1 is
equivalent to this because the list is sorted); no qualifying candidate
leaves the model unchanged, and a qualifying one is reassigned to; and for
positive ranges the squared-ratio order and threshold agree with the
source's `distance/range` values. -/
theorem C2_handover_selection (m : VECModel) (si vid : ℕ) :
    (∀ (r : ℚ) (n : ℕ), (r, n) ∈ handover_candidates m si (getVehicle m vid).pos ↔
      n ∈ (getStation m si).neighbors ∧ n ≠ si ∧
      r = ratio_sq (getStation m n) (getVehicle m vid).pos) ∧
    (sortCands (handover_candidates m si (getVehicle m vid).pos)).Pairwise
      (fun a b => hoLe a b = true) ∧
    (sortCands (handover_candidates m si (getVehicle m vid).pos)).Perm
      (handover_candidates m si (getVehicle m vid).pos) ∧
    (∀ k : ℚ, (sortCands (handover_candidates m si (getVehicle m vid).pos)).filter
        (fun p => decide (p.1 = k))
      = (handover_candidates m si (getVehicle m vid).pos).filter
          (fun p => decide (p.1 = k))) ∧
    handover_target m si vid
      = ((sortCands (handover_candidates m si (getVehicle m vid).pos)).find?
          (hoAccept m (getVehicle m vid))).map (fun p => p.2) ∧
    (handover_target m si vid = none → attempt_handover m si vid = m) ∧
    (∀ ni, handover_target m si vid = some ni →
      attempt_handover m si vid = applyHandover m si vid ni) ∧
    (∀ (s1 s2 : VECStationAgent) (p : Pt), 0 < s1.range → 0 < s2.range →
      (ratio_sq s1 p ≤ ratio_sq s2 p ↔
        distance (toR s1.pos) (toR p) / ((s1.range : ℚ) : ℝ)
          ≤ distance (toR s2.pos) (toR p) / ((s2.range : ℚ) : ℝ))) ∧
    (∀ (s : VECStationAgent) (p : Pt), 0 < s.range →
      (1 < ratio_sq s p ↔
        1 < distance (toR s.pos) (toR p) / ((s.range : ℚ) : ℝ))) := by
  refine ⟨handover_candidates_mem m si _,
    sortCands_sorted _,
    sortCands_perm _,
    fun k => sortCands_stable k _,
    ?_, ?_, ?_,
    fun s1 s2 p h1 h2 => ratio_sq_le_iff s1 s2 p h1 h2,
    fun s p h => ratio_sq_gt_one_iff s p h⟩
  · simp only [handover_target]
    exact hoscan_eq_find m _ _ (sortCands_sorted _)
  · intro h
    unfold attempt_handover
    rw [h]
  · intro ni h
    unfold attempt_handover
    rw [h]

/-- Witness for `C2_handover_selection`: in `c5Model`, station 0's scan
accepts neighbor 1, and the attempt applies the handover to it. -/
theorem C2_handover_selection_witness :
    handover_target c5Model 0 0 = some 1 ∧
    attempt_handover c5Model 0 0 = applyHandover c5Model 0 0 1 :=
  ⟨by decide, (C2_handover_selection c5Model 0 0).2.2.2.2.2.2.1 1 (by decide)⟩

/-- Claim C4 counterexample: the claim "after every tick the sum of loads
equals the number of currently active vehicles" is false: a model built
from one trace that only starts at external time 5 has, after its first
tick, total load 1 but zero active vehicles. -/
theorem C4_counterexample :
    ((mkModel 200 200 [c4Trace]).bind tick).map (fun m => (sumLoad m, activeCount m))
      = .ok (1, 0) ∧ (1 : ℕ) ≠ 0 := by
  exact ⟨by decide, by decide⟩

/-- Claim C4 (amended): the sum of `load` over all stations equals the total
number of spawned vehicles — every spawned vehicle, active or not, is in
exactly one served set — at construction (where it also equals the number
of traces) and after every tick. -/
theorem C4_load_sum :
    (∀ (width height : ℚ) (traces : List VehicleTrace) (m0 : VECModel),
      mkModel width height traces = .ok m0 →
      sumLoad m0 = m0.vehicles.length ∧ m0.vehicles.length = traces.length) ∧
    (∀ (m m' : VECModel), Consistent m → NeighborsWF m → tick m = .ok m' →
      sumLoad m' = sumLoad m ∧ m'.vehicles.length = m.vehicles.length) := by
  constructor
  · intro width height traces m0 hok
    refine ⟨(mkModel_invariants width height traces m0 hok).2.2, ?_⟩
    have haux : ∀ (ts : List VehicleTrace) (acc m' : VECModel),
        ts.foldlM (spawn_vehicle width height) acc = .ok m' →
        m'.vehicles.length = acc.vehicles.length + ts.length := by
      intro ts
      induction ts with
      | nil =>
        intro acc m' h
        cases h
        simp
      | cons t rest ih =>
        intro acc m' h
        rw [List.foldlM_cons] at h
        cases hsp : spawn_vehicle width height acc t with
        | error e => rw [hsp] at h; cases h
        | ok m1 =>
          rw [hsp] at h
          have hlen : m1.vehicles.length = acc.vehicles.length + 1 := by
            simp only [spawn_vehicle] at hsp
            cases hv1 : (if t.first_ts = 0 then
                do_step { ts := 0, trace_i := 0, trace := t, active := false,
                          dir := (1, 0), pos := (0, 0), station := none } 0
              else .ok { ts := 0, trace_i := 0, trace := t, active := false,
                         dir := (1, 0), pos := (0, 0), station := none }) with
            | error e => rw [hv1] at hsp; cases hsp
            | ok v1 =>
              rw [hv1] at hsp
              split at hsp
              · cases hsp
              · cases hsp
                simp
          rw [ih m1 m' h, hlen]
          simp only [List.length_cons]
          omega
    rw [haux traces _ m0 hok]
    simp
  · intro m m' hC hN hok
    exact ⟨(tick_preserve hC hN hok).2.2.1, (tick_preserve hC hN hok).2.2.2⟩

/-- Witness for `C4_load_sum`: the empty model has load sum 0 = vehicle
count 0 = trace count 0. -/
theorem C4_load_sum_witness :
    sumLoad { stations := mkStations 200 200, vehicles := [] }
      = ({ stations := mkStations 200 200, vehicles := [] } : VECModel).vehicles.length :=
  (C4_load_sum.1 200 200 [] _ rfl).1

/-- Claim C5 counterexample: the claim "stations evaluate handover only for
served vehicles whose active flag is true, and an inactive vehicle is
never again considered" is false: in `c5Model` the served vehicle 0 is
inactive, yet one tick hands it over from station 0 to station 1. -/
theorem C5_counterexample :
    (getVehicle c5Model 0).active = false ∧
    (getVehicle c5Model 0).station = some 0 ∧
    (tick c5Model).map (fun m => (getVehicle m 0).station) = .ok (some 1) := by
  exact ⟨by decide, by decide, by decide⟩

/-- Claim C5 (amended): the station phase evaluates every vehicle in a
served set regardless of its `active` flag — the phase never reads the
flag, so its result commutes with arbitrarily overwriting any vehicle's
flag. -/
theorem C5_active_not_consulted :
    ∀ (m : VECModel) (vid : ℕ) (b : Bool),
      stationPhase (setActive m vid b) = setActive (stationPhase m) vid b :=
  fun m vid b => stationPhase_setActive m vid b

/-- Claim C7: initial station assignment at spawn time.  Because the
`spawn_vehicle` closure reads the leftover loop variable `pos`, the
vehicle is placed at `station_positions[3]` rather than at its own trace
position: a vehicle whose trace starts at `(190, 10)` — exactly station
1's position — is nevertheless assigned station 3 (and sits at
`(10, 190)`), while the nearest station to its actual spawn position is
station 1. -/
theorem C7_initial_assignment :
    (mkModel 200 200 [c7Trace]).map (fun m => (getVehicle m 0).station) = .ok (some 3) ∧
    (mkModel 200 200 [c7Trace]).map (fun m => (getVehicle m 0).pos) = .ok (10, 190) ∧
    c7Trace.trace.getD 0 ⟨0, 0, 0, (1, 0)⟩ = ⟨0, 190, 10, (0, 1)⟩ ∧
    argmin_station (mkStations 200 200) (190, 10) = some 1 ∧
    (3 : ℕ) ≠ 1 := by
  exact ⟨by decide, by decide, by decide, by decide, by decide⟩

/-- Claim C8: scheduler order and one-tick-stale causality.  The
registration order is all stations (creation order) then all vehicles
(creation order); a tick is exactly the station phase followed by the
vehicle phase; the station phase leaves every vehicle's position, heading,
clock, activity and trace cursor untouched (so station decisions for tick
N read vehicle positions from the end of tick N−1); and the vehicle phase
leaves every station (hence every served set) and every vehicle's station
reference untouched. -/
theorem C8_scheduler_order :
    (∀ m : VECModel, agentOrder m =
      (List.range m.stations.length).map AgentRef.stationRef
        ++ (List.range m.vehicles.length).map AgentRef.vehicleRef) ∧
    (∀ m : VECModel, tick m = vehiclePhase (stationPhase m)) ∧
    (∀ (m : VECModel) (w : ℕ),
      (getVehicle (stationPhase m) w).pos = (getVehicle m w).pos ∧
      (getVehicle (stationPhase m) w).dir = (getVehicle m w).dir ∧
      (getVehicle (stationPhase m) w).ts = (getVehicle m w).ts ∧
      (getVehicle (stationPhase m) w).active = (getVehicle m w).active ∧
      (getVehicle (stationPhase m) w).trace_i = (getVehicle m w).trace_i) ∧
    (∀ (m m' : VECModel), vehiclePhase m = .ok m' →
      m'.stations = m.stations ∧
      ∀ w, (getVehicle m' w).station = (getVehicle m w).station) := by
  refine ⟨fun m => rfl, tick_eq, fun m w => ?_, fun m m' h => ?_⟩
  · obtain ⟨st, hst⟩ := (stationPhase_vehiclesShape m).2 w
    rw [hst]
    exact ⟨rfl, rfl, rfl, rfl, rfl⟩
  · obtain ⟨h1, _, h3⟩ := vehiclePhase_ok h
    exact ⟨h1, h3⟩

/-- Witness for `C8_scheduler_order`: the vehicle phase of the empty model
succeeds and leaves its (empty) station list unchanged. -/
theorem C8_scheduler_order_witness :
    ({ stations := [], vehicles := [] } : VECModel).stations
      = ({ stations := [], vehicles := [] } : VECModel).stations :=
  (C8_scheduler_order.2.2.2 { stations := [], vehicles := [] }
    { stations := [], vehicles := [] } rfl).1

/-- Claim C10: a handover never overloads its target.  Whenever the scan
designates a target, that target's load was strictly below its capacity
beforehand, and the handover raises it by exactly one, to at most the
capacity; the handover step itself can therefore never push a station
above capacity. -/
theorem C10_no_overload (m : VECModel) (si vid ni : ℕ)
    (hN : NeighborsWF m) (hsi : si < m.stations.length)
    (htgt : handover_target m si vid = some ni) :
    (getStation m ni).load < (getStation m ni).capacity ∧
    (getStation (attempt_handover m si vid) ni).load = (getStation m ni).load + 1 ∧
    (getStation (attempt_handover m si vid) ni).load ≤ (getStation m ni).capacity := by
  obtain ⟨hnb, hne, hload, _, _⟩ := handover_target_some_spec m si vid ni htgt
  have hni : ni < m.stations.length := hN si hsi ni hnb
  have hpost : (getStation (attempt_handover m si vid) ni).load
      = (getStation m ni).load + 1 := by
    unfold attempt_handover
    rw [htgt, getStation_applyHandover_ni m vid hni]
    simp [VECStationAgent.load]
  exact ⟨hload, hpost, by omega⟩

/-- Witness for `C10_no_overload`: in `c5Model` the accepted target
(station 1, load 0, capacity 10) is strictly below capacity. -/
theorem C10_no_overload_witness :
    (getStation c5Model 1).load < (getStation c5Model 1).capacity :=
  (C10_no_overload c5Model 0 0 1 (by decide) (by decide) (by decide)).1
